import Mathlib

set_option maxRecDepth 8192

/-!
# Flow-graph model of the process-mapper canvas

Shallow embedding of the graph-editing core of the process-mapper
frontend (the canvas component): node/edge records, the incremental
reconciliation loop (`applyChange` / `applyChanges`), the connectivity
validation in `onConnect` / `onReconnect`, the logical renumbering
`renumberByFlowSequence`, and the bounded history stack
(`saveToHistory` / `undo` / `redo`).

JavaScript conventions are made explicit:
* `undefined`/`null` record fields are modelled as `Option`;
* `a || b` on strings is `jsOr` / `jsOrS` (the empty string is falsy);
* each call to `uuidv4()` / `Math.random()` is modelled as an explicit
  `fresh…` input carried by the operation record (the draw is an input
  of the function, making the nondeterminism explicit);
* constant styling/rendering properties (colors, markers, callbacks)
  carry no graph logic and are not part of the records.
-/

namespace ProcessMapper

/-- x/y coordinates of a node's `position` object. -/
structure Pos where
  x : Int
  y : Int
deriving DecidableEq, Repr

/-- The `data` record stored on every canvas node. -/
structure NodeData where
  label : String
  id : String
  logical_id : String
  owner : String
  system : String
  manualOrAutomated : String
  type : String
  user_modified : Bool
deriving DecidableEq, Repr

/-- A canvas node: `type` is one of `"start"`, `"end"`, `"decision"`,
`"merge"`, `"default"` (a Process step). -/
structure Node where
  id : String
  type : String
  position : Pos
  data : NodeData
deriving DecidableEq, Repr

/-- A canvas edge.  `sourceHandle`/`targetHandle` are the optional port
names; `label` is the displayed condition label. -/
structure Edge where
  id : String
  source : String
  target : String
  sourceHandle : Option String
  targetHandle : Option String
  label : String
deriving DecidableEq, Repr

/-- JavaScript `s || d` for strings: the empty string is falsy. -/
def jsOrS (s d : String) : String := if s = "" then d else s

/-- JavaScript `o || d` where `o` may be `undefined` (modelled `none`). -/
def jsOr (o : Option String) (d : String) : String :=
  match o with
  | none => d
  | some s => jsOrS s d

/-! ## Reconciliation engine (`generateIncrementalFlow`'s change loop) -/

/-- The `change.node` payload of an `add_node` change-op.  The `fresh…`
fields record the values the two `uuidv4()` calls and the
`Math.random()` position draw would return, used only when the
corresponding payload field is absent. -/
structure ChangeNodeSpec where
  id : Option String
  label : String
  type : Option String
  logical_id : Option String
  owner : Option String
  system : Option String
  manualOrAutomated : Option String
  position : Option Pos
  freshId : String
  freshDataId : String
  freshPos : Pos
deriving DecidableEq, Repr

/-- The `change.edge` payload of an `add_edge` change-op. -/
structure ChangeEdgeSpec where
  id : Option String
  source : String
  target : String
  condition : Option String
  freshId : String
deriving DecidableEq, Repr

/-- One change-op of a reconciliation batch. -/
inductive ChangeOp where
  | add_node (node : ChangeNodeSpec)
  | update_node (id : String) (label : String)
  | add_edge (edge : ChangeEdgeSpec)
deriving DecidableEq, Repr

/-- Non-fatal warnings emitted by the reconciliation loop
(`console.warn('Skipping orphan edge - missing nodes', …)`). -/
inductive RecWarning where
  | orphanEdgeDropped (source target : String)
deriving DecidableEq, Repr

/-- Working state of one reconciliation batch: the `updatedNodes` /
`updatedEdges` arrays plus the warnings issued so far. -/
structure RecState where
  nodes : List Node
  edges : List Edge
  warnings : List RecWarning
deriving DecidableEq, Repr

/-- The `change.node.type === '…' ? … : 'default'` ternary chain. -/
def mapNodeType (t : Option String) : String :=
  match t with
  | some "decision" => "decision"
  | some "start" => "start"
  | some "end" => "end"
  | some "merge" => "merge"
  | _ => "default"

/-- The node object built by the `add_node` branch. -/
def mkAddedNode (spec : ChangeNodeSpec) : Node :=
  { id := jsOr spec.id spec.freshId
    type := mapNodeType spec.type
    position := spec.position.getD spec.freshPos
    data :=
      { label := spec.label
        id := jsOr spec.id spec.freshDataId
        logical_id := jsOr spec.logical_id ""
        owner := jsOr spec.owner "TBD"
        system := jsOr spec.system "TBD"
        manualOrAutomated := jsOr spec.manualOrAutomated "manual"
        type := jsOr spec.type "default"
        user_modified := false } }

/-- The `update_node` branch: `findIndex` on the working array, then an
in-place label overwrite guarded by `user_modified`. -/
def applyUpdateNode : List Node → String → String → List Node
  | [], _, _ => []
  | n :: rest, id, label =>
    if n.id = id then
      if n.data.user_modified then n :: rest
      else { n with data := { n.data with label := label } } :: rest
    else n :: applyUpdateNode rest id label

/-- The edge object built by the `add_edge` branch. -/
def mkAddedEdge (spec : ChangeEdgeSpec) (isDecisionNode : Bool) : Edge :=
  { id := jsOr spec.id spec.freshId
    source := spec.source
    target := spec.target
    sourceHandle := none
    targetHandle := none
    label := if isDecisionNode then jsOr spec.condition "Yes/No" else "" }

/-- One iteration of the `changes.forEach` loop. -/
def applyChange (st : RecState) (c : ChangeOp) : RecState :=
  match c with
  | .add_node spec => { st with nodes := st.nodes ++ [mkAddedNode spec] }
  | .update_node id label =>
      { st with nodes := applyUpdateNode st.nodes id label }
  | .add_edge spec =>
      let sourceExists := st.nodes.any (fun n => n.id = spec.source)
      let targetExists := st.nodes.any (fun n => n.id = spec.target)
      if sourceExists && targetExists then
        let isDecisionNode :=
          match st.nodes.find? (fun n => n.id = spec.source) with
          | some n => n.type = "decision"
          | none => false
        { st with edges := st.edges ++ [mkAddedEdge spec isDecisionNode] }
      else
        { st with warnings :=
            st.warnings ++ [.orphanEdgeDropped spec.source spec.target] }

/-- The whole `changes.forEach(change => …)` loop of one batch. -/
def applyChanges (st : RecState) (cs : List ChangeOp) : RecState :=
  cs.foldl applyChange st

/-! ## Logical Numbering Engine (`renumberByFlowSequence`) -/

/-- The `nodeMap` object: `nodes.forEach(n => nodeMap[n.id] = n)`, so
the last node with a given id wins. -/
def lookupNode (nodes : List Node) (id : String) : Option Node :=
  nodes.reverse.find? (fun n => n.id = id)

/-- The `adjacency` object: for each source id, the targets of its
outgoing edges in edge order. -/
def adjacency (edges : List Edge) (id : String) : List String :=
  (edges.filter (fun e => e.source = id)).map (fun e => e.target)

/-- Node types skipped by the numbering (they keep their previous
`logical_id`, or get `''`). -/
def isSkipType (t : String) : Bool :=
  t = "start" || t = "end" || t = "decision" || t = "merge"

/-- The per-node `logical_id` assignment of the traversal body: skip
types keep `logical_id || ''`, Process (`'default'`) steps get
`1.1.1.<counter>` and bump the counter. -/
def assignNode (node : Node) (counter : Nat) : Node × Nat :=
  if isSkipType node.type then
    ({ node with data :=
        { node.data with logical_id := jsOrS node.data.logical_id "" } },
      counter)
  else
    ({ node with data :=
        { node.data with logical_id := "1.1.1." ++ toString counter } },
      counter + 1)

/-- Mutable state of the traversal: the `visited` set (as the list of
ids in reverse visitation order), the `updatedNodes` output array and
the `counter`. -/
structure TravState where
  visited : List String
  updatedNodes : List Node
  counter : Nat
deriving DecidableEq, Repr

/-- The recursive `traverseFlow` closure.  The JS recursion is bounded
by the `visited` set; here the same recursion carries explicit fuel
(one unit per nested call).  `renumberByFlowSequence` passes
`nodes.length + 1` units, which is never exhausted: every nested level
except the last adds one new id of `nodeMap` to `visited`. -/
def traverseFlow (nodeMap : String → Option Node) (adj : String → List String) :
    Nat → String → TravState → TravState
  | 0, _, st => st
  | fuel + 1, nodeId, st =>
    if st.visited.contains nodeId then st
    else
      match nodeMap nodeId with
      | none => st
      | some node =>
        let (node', counter') := assignNode node st.counter
        let st' : TravState :=
          ⟨nodeId :: st.visited, st.updatedNodes ++ [node'], counter'⟩
        (adj nodeId).foldl (fun s next => traverseFlow nodeMap adj fuel next s) st'

/-- The trailing loop over `nodes` appending every node whose id was
not visited (it does not extend `visited`). -/
def appendOrphans (nodes : List Node) (st : TravState) : TravState :=
  nodes.foldl
    (fun s node =>
      if s.visited.contains node.id then s
      else
        let (node', counter') := assignNode node s.counter
        ⟨s.visited, s.updatedNodes ++ [node'], counter'⟩)
    st

/-- `renumberByFlowSequence(nodes, edges)`: renumber Process steps in
traversal order from the zero-in-degree roots (falling back to
`nodes[0]`), then append unvisited nodes. -/
def renumberByFlowSequence (nodes : List Node) (edges : List Edge) : List Node :=
  match nodes with
  | [] => []
  | n0 :: _ =>
    let incomingTargets := edges.map (fun e => e.target)
    let startNodes := nodes.filter (fun n => !(incomingTargets.contains n.id))
    let actualStartNodes := if startNodes.isEmpty then [n0] else startNodes
    let st1 :=
      actualStartNodes.foldl
        (fun s r =>
          traverseFlow (lookupNode nodes) (adjacency edges)
            (nodes.length + 1) r.id s)
        ⟨[], [], 1⟩
    (appendOrphans nodes st1).updatedNodes

/-! ## Connectivity Validator (`onConnect` / `onReconnect`) -/

/-- The connection parameters React Flow hands to `onConnect` /
`onReconnect`. -/
structure ConnectionParams where
  source : String
  target : String
  sourceHandle : Option String
  targetHandle : Option String
deriving DecidableEq, Repr

/-- Result of a connect/reconnect attempt: the node and edge
collections afterwards, plus the error message surfaced through
`showErrorMessage` (`none` when no message was shown). -/
structure ConnectOutcome where
  nodes : List Node
  edges : List Edge
  error : Option String
deriving DecidableEq, Repr

/-- The id the `@xyflow` `addEdge`/`reconnectEdge` helpers generate for
a connection. -/
def xyEdgeId (p : ConnectionParams) : String :=
  "xy-edge__" ++ p.source ++ (p.sourceHandle.getD "") ++ "-"
    ++ p.target ++ (p.targetHandle.getD "")

/-- The source-side degree-rule chain of `onConnect`, starting from
`isValid = true, errorMessage = ''`.  Inside the `'start'` branch both
`if`s run in sequence, the later assignment overwriting the message. -/
def connectSourceRules (sourceType : String) (sourceOutgoing targetIncoming : Nat) :
    Bool × String :=
  if sourceType = "start" then
    let r : Bool × String := (true, "")
    let r := if 0 < targetIncoming then
        (false, "Start node cannot have incoming connections") else r
    let r := if 1 ≤ sourceOutgoing then
        (false, "Start node can only have one outgoing connection") else r
    r
  else if sourceType = "end" then
    (false, "End node cannot have outgoing connections")
  else if sourceType = "default" then
    if 1 ≤ sourceOutgoing then
      (false, "Process step can only have one outgoing connection")
    else (true, "")
  else if sourceType = "decision" then
    if 3 ≤ sourceOutgoing then
      (false, "Decision node can have maximum 3 outgoing connections")
    else (true, "")
  else (true, "")

/-- The target-side degree-rule chain of `onConnect`, continuing from
the source-side result `r`. -/
def connectTargetRules (targetType : String) (targetIncoming : Nat)
    (r : Bool × String) : Bool × String :=
  if targetType = "start" then
    (false, "Start node cannot have incoming connections")
  else if targetType = "end" then r
  else if targetType = "default" then
    if 1 ≤ targetIncoming then
      (false, "Process step can only have one incoming connection")
    else r
  else if targetType = "decision" then
    if 1 ≤ targetIncoming then
      (false, "Decision node can only have one incoming connection")
    else r
  else r

/-- The `onConnect` handler: duplicate-anchor check, handle-in-use
checks, degree rules, then append the new edge and renumber. -/
def onConnect (nodes : List Node) (edges : List Edge) (params : ConnectionParams) :
    ConnectOutcome :=
  match nodes.find? (fun n => n.id = params.source),
      nodes.find? (fun n => n.id = params.target) with
  | some sourceNode, some targetNode =>
    let sourceType := sourceNode.type
    let targetType := targetNode.type
    let sourceOutgoing := (edges.filter (fun e => e.source = params.source)).length
    let targetIncoming := (edges.filter (fun e => e.target = params.target)).length
    if edges.any (fun e =>
        e.source = params.source && e.target = params.target &&
        e.sourceHandle = params.sourceHandle && e.targetHandle = params.targetHandle) then
      ⟨nodes, edges, some "Connection already exists at this anchor point"⟩
    else if edges.any (fun e =>
        e.source = params.source && e.sourceHandle = params.sourceHandle) then
      ⟨nodes, edges, some "This connector point is already in use"⟩
    else if edges.any (fun e =>
        e.target = params.target && e.targetHandle = params.targetHandle) then
      ⟨nodes, edges, some "This connector point is already in use"⟩
    else
      let r := connectTargetRules targetType targetIncoming
        (connectSourceRules sourceType sourceOutgoing targetIncoming)
      if r.1 then
        let isDecisionNode := sourceType = "decision"
        let newEdge : Edge :=
          { id := xyEdgeId params
            source := params.source
            target := params.target
            sourceHandle := params.sourceHandle
            targetHandle := params.targetHandle
            label := if isDecisionNode then
                (if params.targetHandle = some "top" then "Yes" else "No")
              else "" }
        let newEdges := edges ++ [newEdge]
        ⟨renumberByFlowSequence nodes newEdges, newEdges, none⟩
      else ⟨nodes, edges, some r.2⟩
  | _, _ => ⟨nodes, edges, none⟩

/-- The source-side degree-rule chain of `onReconnect` (an `else if`
chain, slightly different from `onConnect`'s). -/
def reconnectSourceRules (sourceType : String) (sourceOutgoing : Nat) :
    Bool × String :=
  if sourceType = "start" ∧ 1 ≤ sourceOutgoing then
    (false, "Start node can only have one outgoing connection")
  else if sourceType = "end" then
    (false, "End node cannot have outgoing connections")
  else if sourceType = "default" ∧ 1 ≤ sourceOutgoing then
    (false, "Process step can only have one outgoing connection")
  else if sourceType = "decision" ∧ 3 ≤ sourceOutgoing then
    (false, "Decision node can have maximum 3 outgoing connections")
  else (true, "")

/-- The target-side degree-rule chain of `onReconnect`. -/
def reconnectTargetRules (targetType : String) (targetIncoming : Nat)
    (r : Bool × String) : Bool × String :=
  if targetType = "start" then
    (false, "Start node cannot have incoming connections")
  else if targetType = "default" ∧ 1 ≤ targetIncoming then
    (false, "Process step can only have one incoming connection")
  else if targetType = "decision" ∧ 1 ≤ targetIncoming then
    (false, "Decision node can only have one incoming connection")
  else r

/-- The `onReconnect` handler: degree rules evaluated on the edges
excluding the edge being moved, then `reconnectEdge` (drop the old
edge, append it re-targeted under a fresh id).  The deferred
`setTimeout` renumber runs on the state captured at call time, i.e. on
the *pre-reconnect* `nodes`/`edges`. -/
def onReconnect (nodes : List Node) (edges : List Edge)
    (oldEdge : Edge) (newConnection : ConnectionParams) : ConnectOutcome :=
  match nodes.find? (fun n => n.id = newConnection.source),
      nodes.find? (fun n => n.id = newConnection.target) with
  | some sourceNode, some targetNode =>
    let sourceType := sourceNode.type
    let targetType := targetNode.type
    let otherEdges := edges.filter (fun e => e.id ≠ oldEdge.id)
    let sourceOutgoing :=
      (otherEdges.filter (fun e => e.source = newConnection.source)).length
    let targetIncoming :=
      (otherEdges.filter (fun e => e.target = newConnection.target)).length
    let r := reconnectTargetRules targetType targetIncoming
      (reconnectSourceRules sourceType sourceOutgoing)
    if r.1 then
      let newEdges := edges.filter (fun e => e.id ≠ oldEdge.id) ++
        [{ oldEdge with
            id := xyEdgeId newConnection
            source := newConnection.source
            target := newConnection.target
            sourceHandle := newConnection.sourceHandle
            targetHandle := newConnection.targetHandle }]
      ⟨renumberByFlowSequence nodes edges, newEdges, none⟩
    else ⟨nodes, edges, some r.2⟩
  | _, _ =>
    ⟨nodes, edges, some "Invalid reconnection: source or target node not found"⟩

/-! ## History Manager (`saveToHistory` / `undo` / `redo`) -/

/-- One history snapshot: a deep copy of the collections plus the
`Date.now()` timestamp. -/
structure HistorySnapshot where
  nodes : List Node
  edges : List Edge
  timestamp : Nat
deriving DecidableEq, Repr

/-- The `history` array and the `historyIndex` cursor
(`useState([])` / `useState(-1)`). -/
structure HistoryState where
  history : List HistorySnapshot
  historyIndex : Int
deriving DecidableEq, Repr

/-- Initial history state. -/
def initHistory : HistoryState := ⟨[], -1⟩

/-- `saveToHistory`: truncate after the cursor (`slice(0, index + 1)`),
push, and when the stack exceeds 50 entries `shift()` the oldest one
(in that case the cursor is not advanced). -/
def saveToHistory (st : HistoryState) (snap : HistorySnapshot) : HistoryState :=
  let newHistory := st.history.take (st.historyIndex + 1).toNat ++ [snap]
  if 50 < newHistory.length then
    ⟨newHistory.drop 1, st.historyIndex⟩
  else
    ⟨newHistory, st.historyIndex + 1⟩

/-- `undo`: move the cursor back unless at the bottom. -/
def undo (st : HistoryState) : HistoryState :=
  if 0 < st.historyIndex then
    { st with historyIndex := st.historyIndex - 1 }
  else st

/-- `redo`: move the cursor forward unless at the tip. -/
def redo (st : HistoryState) : HistoryState :=
  if st.historyIndex < (st.history.length : Int) - 1 then
    { st with historyIndex := st.historyIndex + 1 }
  else st

/-- One user-visible history action. -/
inductive HistoryOp where
  | push (snap : HistorySnapshot)
  | undo
  | redo
deriving Repr

/-- Apply one history action. -/
def applyHistoryOp (st : HistoryState) (op : HistoryOp) : HistoryState :=
  match op with
  | .push snap => saveToHistory st snap
  | .undo => undo st
  | .redo => redo st

/-- Run a sequence of history actions from the initial state. -/
def runHistory (ops : List HistoryOp) : HistoryState :=
  ops.foldl applyHistoryOp initHistory

/-! ## Derived notions used in the statements -/

/-- Invariant of the history state: bounded stack, cursor within it. -/
def HistInv (st : HistoryState) : Prop :=
  st.history.length ≤ 50 ∧
    st.historyIndex + 1 ≤ (st.history.length : Int) ∧
    -1 ≤ st.historyIndex

/-- The logical ids of the Process (`'default'`) nodes of a list, in
list order. -/
def processLogicalIds (nodes : List Node) : List String :=
  (nodes.filter (fun n => !(isSkipType n.type))).map (fun n => n.data.logical_id)

/-- Forget a node's `logical_id` (used to state that renumbering
changes nothing else). -/
def eraseLid (n : Node) : Node :=
  { n with data := { n.data with logical_id := "" } }

/-- Decimal value of a digit character. -/
def digitVal (c : Char) : Nat := c.toNat - '0'.toNat

/-- Decode a most-significant-first digit string. -/
def decodeDigits (cs : List Char) : Nat :=
  cs.foldl (fun a c => a * 10 + digitVal c) 0

/-- Id-level skeleton of `traverseFlow`: given the presence predicate
`p` (whether the id is in the node map) and the adjacency function, it
returns the final visited list together with the list of newly visited
ids in visitation order. -/
def visitStep (p : String → Bool) (adj : String → List String) :
    Nat → String → List String → List String × List String
  | 0, _, vis => (vis, [])
  | fuel + 1, n, vis =>
    if vis.contains n then (vis, [])
    else if p n then
      (adj n).foldl
        (fun acc m =>
          let r := visitStep p adj fuel m acc.1
          (r.1, acc.2 ++ r.2))
        (n :: vis, [n])
    else (vis, [])

/-- Fold `visitStep` over a list of entry ids, accumulating the newly
visited ids. -/
def visitFold (p : String → Bool) (adj : String → List String)
    (fuel : Nat) (l : List String) (vis : List String) :
    List String × List String :=
  l.foldl
    (fun acc m =>
      let r := visitStep p adj fuel m acc.1
      (r.1, acc.2 ++ r.2))
    (vis, [])

/-- Run `assignNode` over a list of ids through a node map, skipping
absent ids; returns the produced nodes and the final counter. -/
def assignSeq (f : String → Option Node) : List String → Nat → List Node × Nat
  | [], c => ([], c)
  | id :: ids, c =>
    match f id with
    | some node =>
      let (n', c') := assignNode node c
      let r := assignSeq f ids c'
      (n' :: r.1, r.2)
    | none => assignSeq f ids c

/-- Run `assignNode` over a list of nodes; returns the produced nodes
and the final counter. -/
def assignList : List Node → Nat → List Node × Nat
  | [], c => ([], c)
  | n :: l, c =>
    let (n', c') := assignNode n c
    let r := assignList l c'
    (n' :: r.1, r.2)

/-- The ordered entry ids of the renumbering traversal: the ids of the
zero-in-degree nodes, or the first node as fallback. -/
def rootIds (nodes : List Node) (edges : List Edge) : List String :=
  let incomingTargets := edges.map (fun e => e.target)
  let startNodes := nodes.filter (fun n => !(incomingTargets.contains n.id))
  (if startNodes.isEmpty then nodes.take 1 else startNodes).map (fun n => n.id)

/-- Whether an id denotes a node of the list. -/
def presentIn (nodes : List Node) : String → Bool :=
  fun id => (lookupNode nodes id).isSome

/-- Whether an id has no incoming edge (the root test of the
renumbering traversal). -/
def noIncoming (edges : List Edge) : String → Bool :=
  fun id => !((edges.map fun e => e.target).contains id)

/-- The id-level run of the whole renumbering traversal: final visited
list and visitation order. -/
def travVisit (nodes : List Node) (edges : List Edge) : List String × List String :=
  visitFold (presentIn nodes) (adjacency edges) (nodes.length + 1)
    (rootIds nodes edges) []

/-- The visitation order of the renumbering traversal. -/
def travNews (nodes : List Node) (edges : List Edge) : List String :=
  (travVisit nodes edges).2

/-! ## Concrete sample values used by witnesses and counterexamples -/

/-- A sample node with the given id, type, label, logical id and
user-modified flag. -/
def sNode (id ty label lid : String) (um : Bool) : Node :=
  ⟨id, ty, ⟨0, 0⟩, ⟨label, id, lid, "TBD", "TBD", "manual", ty, um⟩⟩

/-- A sample edge. -/
def sEdge (id s t : String) (sh th : Option String) : Edge :=
  ⟨id, s, t, sh, th, ""⟩

/-- A sample `add_node` payload carrying an explicit id. -/
def sAddNodeSpec (id label ty : String) : ChangeNodeSpec :=
  ⟨some id, label, some ty, none, none, none, none, none, "fresh-1", "fresh-2", ⟨0, 0⟩⟩

/-- A sample `add_edge` payload. -/
def sAddEdgeSpec (id s t : String) : ChangeEdgeSpec :=
  ⟨some id, s, t, none, "fresh-3"⟩

/-- Working state used by the update-node witness. -/
def c2umNode : Node := sNode "u" "default" "keep" "" true
/-- Working state used by the update-node witness. -/
def c2plainNode : Node := sNode "v" "default" "old" "" false
/-- Working state used by the update-node witness. -/
def c2st : RecState := ⟨[c2umNode, c2plainNode], [], []⟩

/-- State whose working graph already contains node id `a`. -/
def c3st : RecState := ⟨[sNode "a" "default" "orig" "" false], [], []⟩

/-- Reconciliation state used by the add-edge witness/counterexample:
a start node `s` with one outgoing edge to `b`. -/
def c1st : RecState :=
  ⟨[sNode "s" "start" "Start" "" false, sNode "b" "default" "B" "" false],
    [sEdge "e0" "s" "b" none none], []⟩

/-- Nodes for the end-target rejection input: start `s`, end `e`
(already one incoming edge, from `p`). -/
def c5nodes : List Node :=
  [sNode "s" "start" "Start" "" false,
    sNode "e" "end" "End" "" false,
    sNode "p" "default" "P" "" false]

/-- Edges for the end-target rejection input. -/
def c5edges : List Edge := [sEdge "pe" "p" "e" none (some "left")]

/-- Two Process nodes joined by an anchored edge (duplicate check). -/
def c6dupNodes : List Node :=
  [sNode "n1" "default" "A" "" false, sNode "n2" "default" "B" "" false]
/-- The already-existing edge between them. -/
def c6dupEdges : List Edge := [sEdge "e1" "n1" "n2" none none]
/-- A decision node with one outgoing edge on its `right` handle. -/
def c6hNodes : List Node :=
  [sNode "d" "decision" "D" "" false,
    sNode "p1" "default" "P1" "" false,
    sNode "p2" "default" "P2" "" false]
/-- The edge occupying the `right` handle. -/
def c6hEdges : List Edge := [⟨"eA", "d", "p1", some "right", none, ""⟩]

/-- Merge nodes used by the reconnection counterexample. -/
def c7nodes : List Node :=
  [sNode "a" "merge" "A" "" false,
    sNode "b" "merge" "B" "" false,
    sNode "c" "merge" "C" "" false]

/-- Existing edge `a → b`. -/
def c7e1 : Edge := sEdge "e1" "a" "b" none none
/-- Edge `a → c`, about to be reconnected onto `b`. -/
def c7e2 : Edge := sEdge "e2" "a" "c" none none

/-- A small well-formed graph: start `s` feeding Process `p`. -/
def c10nodes : List Node :=
  [sNode "s" "start" "Start" "" false, sNode "p" "default" "P" "" false]
/-- Its only edge. -/
def c10edges : List Edge := [sEdge "sp" "s" "p" none none]

/-- Two distinct nodes sharing the id `x`. -/
def c10dupNodes : List Node :=
  [sNode "x" "default" "first" "" false, sNode "x" "default" "second" "" false]

/-- A chain `s → p1 → p2` used by the idempotence witness. -/
def c8nodes : List Node :=
  [sNode "p2" "default" "Second" "" false,
    sNode "s" "start" "Start" "" false,
    sNode "p1" "default" "First" "" false]
/-- The chain's edges. -/
def c8edges : List Edge :=
  [sEdge "a" "s" "p1" none none, sEdge "b" "p1" "p2" none none]

/-- A blank snapshot. -/
def c9snap : HistorySnapshot := ⟨[], [], 0⟩
/-- Fifty consecutive pushes. -/
def c9ops : List HistoryOp := List.replicate 50 (.push c9snap)

/-! ## Reconciliation: `update_node` semantics -/

theorem applyUpdateNode_not_found (ns : List Node) (id label : String)
    (h : ∀ n ∈ ns, n.id ≠ id) : applyUpdateNode ns id label = ns := by
  induction ns with
  | nil => rfl
  | cons n rest ih =>
    have hn : n.id ≠ id := h n (List.mem_cons_self n rest)
    simp only [applyUpdateNode, if_neg hn]
    rw [ih (fun m hm => h m (List.mem_cons_of_mem n hm))]

theorem applyUpdateNode_first (pre : List Node) (tgt : Node) (post : List Node)
    (id label : String) (hpre : ∀ n ∈ pre, n.id ≠ id) (hid : tgt.id = id) :
    applyUpdateNode (pre ++ tgt :: post) id label =
      pre ++ (if tgt.data.user_modified then tgt
        else { tgt with data := { tgt.data with label := label } }) :: post := by
  induction pre with
  | nil =>
    simp only [List.nil_append, applyUpdateNode, if_pos hid]
    by_cases hum : tgt.data.user_modified <;> simp [hum]
  | cons p ps ih =>
    have hp : p.id ≠ id := hpre p (List.mem_cons_self p ps)
    simp only [List.cons_append, applyUpdateNode, if_neg hp]
    exact congrArg (fun l => p :: l)
      (ih (fun m hm => hpre m (List.mem_cons_of_mem p hm)))

theorem applyUpdateNode_getElem?_userModified
    (ns : List Node) (id label : String) (i : Nat) (n : Node)
    (hget : ns[i]? = some n) (hum : n.data.user_modified = true) :
    (applyUpdateNode ns id label)[i]? = some n := by
  induction ns generalizing i with
  | nil => simp at hget
  | cons m rest ih =>
    cases i with
    | zero =>
      simp only [List.getElem?_cons_zero, Option.some.injEq] at hget
      subst hget
      by_cases h1 : m.id = id <;> simp [applyUpdateNode, h1, hum]
    | succ j =>
      simp only [List.getElem?_cons_succ] at hget
      by_cases h1 : m.id = id <;> by_cases h2 : m.data.user_modified <;>
        simp [applyUpdateNode, h1, h2, hget, ih j hget]

theorem applyChange_userModified_getElem?
    (st : RecState) (c : ChangeOp) (i : Nat) (n : Node)
    (hget : st.nodes[i]? = some n) (hum : n.data.user_modified = true) :
    (applyChange st c).nodes[i]? = some n := by
  have hi : i < st.nodes.length := by
    by_contra hlt
    rw [List.getElem?_eq_none (by omega)] at hget
    exact Option.noConfusion hget
  cases c with
  | add_node spec =>
    simp only [applyChange]
    rw [List.getElem?_append_left hi]
    exact hget
  | update_node uid ulabel =>
    exact applyUpdateNode_getElem?_userModified st.nodes uid ulabel i n hget hum
  | add_edge spec =>
    simp only [applyChange]
    split
    · exact hget
    · exact hget

theorem applyChanges_userModified_getElem?
    (st : RecState) (cs : List ChangeOp) (i : Nat) (n : Node)
    (hget : st.nodes[i]? = some n) (hum : n.data.user_modified = true) :
    (applyChanges st cs).nodes[i]? = some n := by
  induction cs generalizing st with
  | nil => exact hget
  | cons c rest ih =>
    exact ih (applyChange st c)
      (applyChange_userModified_getElem? st c i n hget hum)

theorem batches_userModified_getElem?
    (st : RecState) (batches : List (List ChangeOp)) (i : Nat) (n : Node)
    (hget : st.nodes[i]? = some n) (hum : n.data.user_modified = true) :
    (batches.foldl applyChanges st).nodes[i]? = some n := by
  induction batches generalizing st with
  | nil => exact hget
  | cons b rest ih =>
    exact ih (applyChanges st b)
      (applyChanges_userModified_getElem? st b i n hget hum)

/-- **C2.** `update_node` semantics of the reconciliation loop: a
missing target id is a no-op; the first node with the target id gets
its label overwritten when its `user_modified` flag is false; and a
node whose `user_modified` flag is true keeps its whole record —
label included — across arbitrarily many reconciliation batches. -/
theorem reconcile_update_node_correct (st : RecState) (id label : String) :
    ((∀ n ∈ st.nodes, n.id ≠ id) →
        applyChange st (ChangeOp.update_node id label) = st)
    ∧ (∀ pre tgt post, st.nodes = pre ++ tgt :: post →
        (∀ n ∈ pre, n.id ≠ id) → tgt.id = id →
        tgt.data.user_modified = false →
        (applyChange st (ChangeOp.update_node id label)).nodes =
          pre ++ { tgt with data := { tgt.data with label := label } } :: post)
    ∧ (∀ batches : List (List ChangeOp), ∀ i : Nat, ∀ n : Node,
        st.nodes[i]? = some n → n.data.user_modified = true →
        (batches.foldl applyChanges st).nodes[i]? = some n) := by
  refine ⟨?_, ?_, ?_⟩
  · intro h
    simp only [applyChange, applyUpdateNode_not_found st.nodes id label h]
  · intro pre tgt post hsplit hpre hid hum
    simp only [applyChange, hsplit,
      applyUpdateNode_first pre tgt post id label hpre hid, hum]
    simp
  · intro batches i n hget hum
    exact batches_userModified_getElem? st batches i n hget hum

/-- Witness for `reconcile_update_node_correct` at a concrete state:
an unknown id is a no-op, a non-user-modified node is relabelled, and
a user-modified node survives two hostile batches untouched. -/
theorem reconcile_update_node_correct_witness :
    (applyChange c2st (ChangeOp.update_node "w" "x") = c2st)
    ∧ ((applyChange c2st (ChangeOp.update_node "v" "new")).nodes =
        [c2umNode, { c2plainNode with
          data := { c2plainNode.data with label := "new" } }])
    ∧ (([[ChangeOp.update_node "u" "evil"], [ChangeOp.update_node "u" "worse"]].foldl
          applyChanges c2st).nodes[0]? = some c2umNode) := by
  refine ⟨?_, ?_, ?_⟩
  · exact (reconcile_update_node_correct c2st "w" "x").1 (by decide)
  · exact (reconcile_update_node_correct c2st "v" "new").2.1
      [c2umNode] c2plainNode [] rfl (by decide) (by decide) (by decide)
  · exact (reconcile_update_node_correct c2st "u" "evil").2.2
      [[ChangeOp.update_node "u" "evil"], [ChangeOp.update_node "u" "worse"]]
      0 c2umNode (by decide) (by decide)

/-! ## Reconciliation: `add_node` semantics -/

/-- **C3 (amended).** An `add_node` op always appends a fresh node to
the working graph — even when the id already exists (see the
counterexample) — with `owner`/`system` defaulted to `"TBD"`,
`manualOrAutomated` defaulted to `"manual"` and `user_modified`
initialised to `false`; edges and warnings are untouched. -/
theorem reconcile_add_node_always_appends (st : RecState) (spec : ChangeNodeSpec) :
    (applyChange st (ChangeOp.add_node spec)).nodes = st.nodes ++ [mkAddedNode spec]
    ∧ (applyChange st (ChangeOp.add_node spec)).edges = st.edges
    ∧ (applyChange st (ChangeOp.add_node spec)).warnings = st.warnings
    ∧ (mkAddedNode spec).data.owner = jsOr spec.owner "TBD"
    ∧ (mkAddedNode spec).data.system = jsOr spec.system "TBD"
    ∧ (mkAddedNode spec).data.manualOrAutomated = jsOr spec.manualOrAutomated "manual"
    ∧ (mkAddedNode spec).data.user_modified = false :=
  ⟨rfl, rfl, rfl, rfl, rfl, rfl, rfl⟩

/-- Counterexample to **C3** as stated: replaying `add_node` with an
id that already exists in the working graph does *not* act as an
update — it pushes a second node with the same id. -/
theorem reconcile_add_node_duplicates_existing_id :
    ((applyChanges c3st [ChangeOp.add_node (sAddNodeSpec "a" "renamed" "default")]).nodes.map
        Node.id = ["a", "a"])
    ∧ c3st.nodes.map Node.id = ["a"] := by
  decide

/-! ## History manager -/

theorem histInv_init : HistInv initHistory := by
  refine ⟨by simp [initHistory], by simp [initHistory], by simp [initHistory]⟩

theorem histInv_save (st : HistoryState) (snap : HistorySnapshot)
    (h : HistInv st) : HistInv (saveToHistory st snap) := by
  obtain ⟨h1, h2, h3⟩ := h
  have ht : ((st.historyIndex + 1).toNat : Int) = st.historyIndex + 1 :=
    Int.toNat_of_nonneg (by omega)
  have e1 : (st.history.take (st.historyIndex + 1).toNat ++ [snap]).length =
      min (st.historyIndex + 1).toNat st.history.length + 1 := by
    simp
  simp only [saveToHistory]
  split
  · rename_i hgt
    rw [e1] at hgt
    refine ⟨?_, ?_, h3⟩
    · show ((st.history.take (st.historyIndex + 1).toNat ++ [snap]).drop 1).length ≤ 50
      rw [List.length_drop, e1]
      omega
    · show st.historyIndex + 1 ≤
        ((((st.history.take (st.historyIndex + 1).toNat ++ [snap]).drop 1).length : Nat) : Int)
      rw [List.length_drop, e1]
      omega
  · rename_i hle
    rw [e1] at hle
    refine ⟨?_, ?_, by show (-1 : Int) ≤ st.historyIndex + 1; omega⟩
    · show (st.history.take (st.historyIndex + 1).toNat ++ [snap]).length ≤ 50
      rw [e1]
      omega
    · show (st.historyIndex + 1) + 1 ≤
        (((st.history.take (st.historyIndex + 1).toNat ++ [snap]).length : Nat) : Int)
      rw [e1]
      omega

theorem histInv_undo (st : HistoryState) (h : HistInv st) : HistInv (undo st) := by
  obtain ⟨h1, h2, h3⟩ := h
  simp only [undo]
  split
  · exact ⟨h1, by show st.historyIndex - 1 + 1 ≤ (st.history.length : Int); omega, by
      show (-1 : Int) ≤ st.historyIndex - 1; omega⟩
  · exact ⟨h1, h2, h3⟩

theorem histInv_redo (st : HistoryState) (h : HistInv st) : HistInv (redo st) := by
  obtain ⟨h1, h2, h3⟩ := h
  simp only [redo]
  split
  · rename_i hr
    exact ⟨h1, by show st.historyIndex + 1 + 1 ≤ (st.history.length : Int); omega, by
      show (-1 : Int) ≤ st.historyIndex + 1; omega⟩
  · exact ⟨h1, h2, h3⟩

theorem histInv_step (st : HistoryState) (op : HistoryOp)
    (h : HistInv st) : HistInv (applyHistoryOp st op) := by
  cases op with
  | push snap => exact histInv_save st snap h
  | undo => exact histInv_undo st h
  | redo => exact histInv_redo st h

theorem histInv_run (ops : List HistoryOp) : HistInv (runHistory ops) := by
  have aux : ∀ (l : List HistoryOp) (st : HistoryState), HistInv st →
      HistInv (l.foldl applyHistoryOp st) := by
    intro l
    induction l with
    | nil => exact fun st h => h
    | cons op rest ih => exact fun st h => ih _ (histInv_step st op h)
  exact aux ops initHistory histInv_init

/-- **C9.** For every sequence of history actions: the stack never
exceeds 50 snapshots (before and after a further push); a push made
while the cursor is strictly below the tip first discards the
snapshots beyond the cursor and evicts nothing; and a push onto a full
stack whose cursor is at the tip evicts exactly the oldest
snapshot. -/
theorem history_stack_bounded (ops : List HistoryOp) (snap : HistorySnapshot) :
    (runHistory ops).history.length ≤ 50
    ∧ (saveToHistory (runHistory ops) snap).history.length ≤ 50
    ∧ ((runHistory ops).historyIndex + 1 < ((runHistory ops).history.length : Int) →
        (saveToHistory (runHistory ops) snap).history =
          (runHistory ops).history.take ((runHistory ops).historyIndex + 1).toNat
            ++ [snap])
    ∧ ((runHistory ops).historyIndex = ((runHistory ops).history.length : Int) - 1 →
        (runHistory ops).history.length = 50 →
        (saveToHistory (runHistory ops) snap).history =
          (runHistory ops).history.drop 1 ++ [snap]) := by
  obtain ⟨h1, h2, h3⟩ := histInv_run ops
  refine ⟨h1, (histInv_save _ snap (histInv_run ops)).1, ?_, ?_⟩
  · intro hlt
    have ht : ((runHistory ops).historyIndex + 1).toNat + 1 ≤ 50 := by omega
    simp only [saveToHistory]
    rw [if_neg]
    simp only [List.length_append, List.length_take, List.length_singleton]
    omega
  · intro htip hfull
    have hidx : (runHistory ops).historyIndex = 49 := by
      rw [htip, hfull]
      rfl
    have htake : ((runHistory ops).historyIndex + 1).toNat = 50 := by
      rw [hidx]
      rfl
    simp only [saveToHistory, htake]
    rw [List.take_of_length_le (by omega), if_pos]
    · rw [List.drop_append_of_le_length (by omega)]
    · simp only [List.length_append, List.length_singleton]
      omega

/-- Witness for `history_stack_bounded`: after 50 pushes the stack is
full with the cursor at the tip, and the 51st push evicts the oldest
snapshot; after an undo the cursor sits below the tip and a push
truncates without eviction. -/
theorem history_stack_bounded_witness :
    ((runHistory c9ops).historyIndex = ((runHistory c9ops).history.length : Int) - 1
      ∧ (runHistory c9ops).history.length = 50
      ∧ (saveToHistory (runHistory c9ops) c9snap).history =
          (runHistory c9ops).history.drop 1 ++ [c9snap])
    ∧ ((runHistory (c9ops ++ [HistoryOp.undo])).historyIndex + 1 <
          ((runHistory (c9ops ++ [HistoryOp.undo])).history.length : Int)
      ∧ (saveToHistory (runHistory (c9ops ++ [HistoryOp.undo])) c9snap).history =
          (runHistory (c9ops ++ [HistoryOp.undo])).history.take
            ((runHistory (c9ops ++ [HistoryOp.undo])).historyIndex + 1).toNat
            ++ [c9snap]) := by
  refine ⟨⟨by decide, by decide, ?_⟩, ⟨by decide, ?_⟩⟩
  · exact (history_stack_bounded c9ops c9snap).2.2.2 (by decide) (by decide)
  · exact (history_stack_bounded (c9ops ++ [HistoryOp.undo]) c9snap).2.2.1 (by decide)

/-! ## Reconciliation: `add_edge` semantics -/

/-- **C1 (amended).** Inside a reconciliation batch an `add_edge` op is
checked only for the existence of its two endpoints in the working
graph (which includes nodes added earlier in the batch): when both
exist the edge is appended *unconditionally* — the Connectivity
Validator's degree/duplicate/handle rules are not consulted (see the
counterexample) — and when either is missing the op only records a
non-fatal `orphanEdgeDropped` warning; in both cases the loop
continues with the remaining ops of the batch. -/
theorem reconcile_add_edge_unvalidated
    (st : RecState) (spec : ChangeEdgeSpec) (rest : List ChangeOp) :
    (applyChanges st (ChangeOp.add_edge spec :: rest) =
      applyChanges (applyChange st (ChangeOp.add_edge spec)) rest)
    ∧ ((st.nodes.any fun n => n.id = spec.source) = true →
       (st.nodes.any fun n => n.id = spec.target) = true →
        ∃ b : Bool,
          (applyChange st (ChangeOp.add_edge spec)).edges =
            st.edges ++ [mkAddedEdge spec b]
          ∧ (applyChange st (ChangeOp.add_edge spec)).nodes = st.nodes
          ∧ (applyChange st (ChangeOp.add_edge spec)).warnings = st.warnings)
    ∧ (((st.nodes.any fun n => n.id = spec.source) = false ∨
        (st.nodes.any fun n => n.id = spec.target) = false) →
        applyChange st (ChangeOp.add_edge spec) =
          { st with warnings := st.warnings ++
              [RecWarning.orphanEdgeDropped spec.source spec.target] }) := by
  refine ⟨rfl, ?_, ?_⟩
  · intro hs ht
    refine ⟨(match st.nodes.find? (fun n => n.id = spec.source) with
             | some n => decide (n.type = "decision")
             | none => false), ?_, ?_, ?_⟩ <;>
      simp [applyChange, hs, ht]
  · intro h
    cases h with
    | inl hs => simp [applyChange, hs]
    | inr ht => simp [applyChange, ht]

/-- Witness for `reconcile_add_edge_unvalidated`: with both endpoints
present the edge is appended; with a missing source only a warning is
recorded. -/
theorem reconcile_add_edge_unvalidated_witness :
    ((c1st.nodes.any fun n => n.id = "s") = true)
    ∧ (∃ b : Bool,
        (applyChange c1st (ChangeOp.add_edge (sAddEdgeSpec "e1" "s" "b"))).edges =
          c1st.edges ++ [mkAddedEdge (sAddEdgeSpec "e1" "s" "b") b]
        ∧ (applyChange c1st (ChangeOp.add_edge (sAddEdgeSpec "e1" "s" "b"))).nodes =
            c1st.nodes
        ∧ (applyChange c1st (ChangeOp.add_edge (sAddEdgeSpec "e1" "s" "b"))).warnings =
            c1st.warnings)
    ∧ (applyChange c1st (ChangeOp.add_edge (sAddEdgeSpec "e2" "x" "b")) =
        { c1st with warnings := c1st.warnings ++
            [RecWarning.orphanEdgeDropped "x" "b"] }) := by
  refine ⟨by decide, ?_, ?_⟩
  · exact (reconcile_add_edge_unvalidated c1st (sAddEdgeSpec "e1" "s" "b") []).2.1
      (by decide) (by decide)
  · exact (reconcile_add_edge_unvalidated c1st (sAddEdgeSpec "e2" "x" "b") []).2.2
      (Or.inl (by decide))

/-- Counterexample to **C1** as stated: the batch `add_edge` below
duplicates the existing `(s, none, b, none)` connector and gives the
start node `s` a second outgoing edge — the Connectivity Validator
(`onConnect`, third conjunct) rejects exactly this connection as a
duplicate — yet the reconciliation loop appends it with no warning. -/
theorem reconcile_add_edge_bypasses_validator :
    ((applyChanges c1st [ChangeOp.add_edge (sAddEdgeSpec "e1" "s" "b")]).edges.map
        (fun e => (e.source, e.sourceHandle, e.target, e.targetHandle)) =
      [("s", none, "b", none), ("s", none, "b", none)])
    ∧ (applyChanges c1st [ChangeOp.add_edge (sAddEdgeSpec "e1" "s" "b")]).warnings = []
    ∧ (onConnect c1st.nodes c1st.edges ⟨"s", "b", none, none⟩).error =
        some "Connection already exists at this anchor point" := by
  decide

/-! ## Connectivity Validator: duplicate connectors and busy handles -/

/-- **C6.** `onConnect` rejects a proposed edge whose exact
`(source, sourceHandle, target, targetHandle)` tuple already exists
(`DuplicateConnector` message), and rejects a proposed edge whose
source handle is already used by an outgoing edge of the same source
or whose target handle is already used by an incoming edge of the
same target (`HandleInUse` message, unless the duplicate message fired
first); in every such rejection the node and edge collections are
returned unchanged. -/
theorem onConnect_rejects_duplicates_and_used_handles
    (nodes : List Node) (edges : List Edge) (params : ConnectionParams)
    (s t : Node)
    (hs : nodes.find? (fun n => n.id = params.source) = some s)
    (ht : nodes.find? (fun n => n.id = params.target) = some t) :
    ((edges.any fun e =>
        e.source = params.source && e.target = params.target &&
          e.sourceHandle = params.sourceHandle &&
          e.targetHandle = params.targetHandle) = true →
      onConnect nodes edges params =
        ⟨nodes, edges, some "Connection already exists at this anchor point"⟩)
    ∧ (((edges.any fun e =>
          e.source = params.source && e.sourceHandle = params.sourceHandle) = true
        ∨ (edges.any fun e =>
          e.target = params.target && e.targetHandle = params.targetHandle) = true) →
      (onConnect nodes edges params).nodes = nodes
      ∧ (onConnect nodes edges params).edges = edges
      ∧ ((onConnect nodes edges params).error =
            some "Connection already exists at this anchor point"
         ∨ (onConnect nodes edges params).error =
            some "This connector point is already in use")) := by
  simp only [onConnect, hs, ht]
  constructor
  · intro hdup
    rw [if_pos hdup]
  · intro hhandle
    by_cases hdup : (edges.any fun e =>
        e.source = params.source && e.target = params.target &&
          e.sourceHandle = params.sourceHandle &&
          e.targetHandle = params.targetHandle) = true
    · rw [if_pos hdup]
      exact ⟨rfl, rfl, Or.inl rfl⟩
    · rw [if_neg hdup]
      by_cases hsh : (edges.any fun e =>
          e.source = params.source && e.sourceHandle = params.sourceHandle) = true
      · rw [if_pos hsh]
        exact ⟨rfl, rfl, Or.inr rfl⟩
      · rw [if_neg hsh]
        cases hhandle with
        | inl h => exact absurd h hsh
        | inr h =>
          rw [if_pos h]
          exact ⟨rfl, rfl, Or.inr rfl⟩

/-- Witness for `onConnect_rejects_duplicates_and_used_handles`: a
repeated connection is rejected as a duplicate, and a connection using
a busy decision handle is rejected with the handle message; in both
cases the graph is unchanged. -/
theorem onConnect_rejects_duplicates_and_used_handles_witness :
    (onConnect c6dupNodes c6dupEdges ⟨"n1", "n2", none, none⟩ =
      ⟨c6dupNodes, c6dupEdges, some "Connection already exists at this anchor point"⟩)
    ∧ ((onConnect c6hNodes c6hEdges ⟨"d", "p2", some "right", none⟩).nodes = c6hNodes
      ∧ (onConnect c6hNodes c6hEdges ⟨"d", "p2", some "right", none⟩).edges = c6hEdges
      ∧ ((onConnect c6hNodes c6hEdges ⟨"d", "p2", some "right", none⟩).error =
            some "Connection already exists at this anchor point"
         ∨ (onConnect c6hNodes c6hEdges ⟨"d", "p2", some "right", none⟩).error =
            some "This connector point is already in use")) := by
  constructor
  · exact (onConnect_rejects_duplicates_and_used_handles c6dupNodes c6dupEdges
      ⟨"n1", "n2", none, none⟩ (sNode "n1" "default" "A" "" false)
      (sNode "n2" "default" "B" "" false) (by decide) (by decide)).1 (by decide)
  · exact (onConnect_rejects_duplicates_and_used_handles c6hNodes c6hEdges
      ⟨"d", "p2", some "right", none⟩ (sNode "d" "decision" "D" "" false)
      (sNode "p2" "default" "P2" "" false) (by decide) (by decide)).2
      (Or.inl (by decide))

/-! ## Connectivity Validator: the end/merge unbounded-incoming rule -/

/-- **C5 (failing input).** An edge from a start node to an *end* node
that already has one incoming edge is rejected — the `'start'` source
branch of `onConnect` tests `targetIncoming > 0` — contradicting the
rule that End targets accept unbounded incoming edges regardless of
the source type.  The last two conjuncts pin down the failing input:
the target really is an end node with exactly one incoming edge. -/
theorem onConnect_start_source_rejects_end_target :
    (onConnect c5nodes c5edges ⟨"s", "e", none, some "top"⟩ =
      ⟨c5nodes, c5edges, some "Start node cannot have incoming connections"⟩)
    ∧ ((c5nodes.find? (fun n => n.id = "e")).map Node.type = some "end")
    ∧ ((c5edges.filter (fun e => e.target = "e")).length = 1) := by
  decide

/-! ## Reconnection skips the duplicate/handle checks -/

/-- **C7 (failing input).** Reconnecting edge `a → c` onto `a → b`
commits even though an identical `(a, none, b, none)` connector
already exists: `onReconnect` runs only the degree rules, not the
`DuplicateConnector`/`HandleInUse` checks — the same connection
offered to `onConnect` (third conjunct) is rejected as a duplicate. -/
theorem onReconnect_skips_duplicate_connector_check :
    ((onReconnect c7nodes [c7e1, c7e2] c7e2 ⟨"a", "b", none, none⟩).error = none)
    ∧ ((onReconnect c7nodes [c7e1, c7e2] c7e2 ⟨"a", "b", none, none⟩).edges.map
        (fun e => (e.source, e.sourceHandle, e.target, e.targetHandle)) =
        [("a", none, "b", none), ("a", none, "b", none)])
    ∧ ((onConnect c7nodes [c7e1] ⟨"a", "b", none, none⟩).error =
        some "Connection already exists at this anchor point") := by
  decide

/-! ## Decimal numerals: `Nat.repr` decodes back and is injective -/

theorem digitVal_digitChar (d : Nat) (h : d < 10) :
    digitVal (Nat.digitChar d) = d := by
  interval_cases d <;> rfl

theorem decodeDigits_append (cs : List Char) (c : Char) :
    decodeDigits (cs ++ [c]) = decodeDigits cs * 10 + digitVal c := by
  simp [decodeDigits, List.foldl_append]

theorem toDigitsCore_decode :
    ∀ (fuel n : Nat) (ds : List Char), n < fuel →
    ∃ cs, Nat.toDigitsCore 10 fuel n ds = cs ++ ds ∧ cs ≠ [] ∧ decodeDigits cs = n := by
  intro fuel
  induction fuel with
  | zero => intro n ds h; omega
  | succ f ih =>
    intro n ds h
    simp only [Nat.toDigitsCore]
    by_cases h0 : n / 10 = 0
    · refine ⟨[Nat.digitChar (n % 10)], by simp [h0], by simp, ?_⟩
      have hn : n < 10 := by omega
      have hmod : n % 10 = n := Nat.mod_eq_of_lt hn
      simp [decodeDigits, hmod]
      exact digitVal_digitChar n hn
    · rw [if_neg h0]
      have hlt : n / 10 < f := by omega
      obtain ⟨cs, hcs, hne, hdec⟩ := ih (n / 10) (Nat.digitChar (n % 10) :: ds) hlt
      refine ⟨cs ++ [Nat.digitChar (n % 10)], ?_, by simp, ?_⟩
      · rw [hcs]
        simp
      · rw [decodeDigits_append, hdec, digitVal_digitChar (n % 10) (by omega)]
        omega

theorem decodeDigits_repr (n : Nat) : decodeDigits (Nat.repr n).data = n := by
  obtain ⟨cs, hcs, hne, hdec⟩ := toDigitsCore_decode (n + 1) n [] (Nat.lt_succ_self n)
  have hdata : (Nat.repr n).data = cs := by
    simp [Nat.repr, Nat.toDigits, hcs, List.asString]
  rw [hdata, hdec]

theorem nat_repr_injective : Function.Injective Nat.repr := by
  intro a b h
  have ha := decodeDigits_repr a
  rw [h, decodeDigits_repr] at ha
  exact ha.symm

/-- The `1.1.1.<n>` logical-id format is injective in `n`. -/
theorem lid_format_injective (a b : Nat)
    (h : "1.1.1." ++ toString a = "1.1.1." ++ toString b) : a = b := by
  have hd : ("1.1.1." ++ toString a).data = ("1.1.1." ++ toString b).data := by rw [h]
  simp only [String.data_append] at hd
  have hdd : (toString a).data = (toString b).data := List.append_cancel_left hd
  exact nat_repr_injective (congrArg String.mk hdd)

/-! ## Basic facts about the per-node assignment -/

theorem jsOrS_empty_idem (s : String) : jsOrS (jsOrS s "") "" = jsOrS s "" := by
  by_cases h : s = "" <;> simp [jsOrS, h]

theorem assignNode_id (n : Node) (c : Nat) : ((assignNode n c).1).id = n.id := by
  unfold assignNode
  split <;> rfl

theorem assignNode_type (n : Node) (c : Nat) : ((assignNode n c).1).type = n.type := by
  unfold assignNode
  split <;> rfl

theorem eraseLid_assignNode (n : Node) (c : Nat) :
    eraseLid (assignNode n c).1 = eraseLid n := by
  unfold assignNode eraseLid
  split <;> rfl

theorem assignNode_idem (n : Node) (c : Nat) :
    assignNode (assignNode n c).1 c = assignNode n c := by
  unfold assignNode
  by_cases h : isSkipType n.type = true
  · simp only [h, if_pos, if_true]
    simp [h, jsOrS_empty_idem]
  · simp only [h]
    simp [h]

theorem assignNode_counter_le (n : Node) (c : Nat) : c ≤ (assignNode n c).2 := by
  unfold assignNode
  split <;> simp

theorem assignList_nil (c : Nat) : assignList [] c = ([], c) := rfl

theorem assignList_append (xs ys : List Node) (c : Nat) :
    assignList (xs ++ ys) c =
      ((assignList xs c).1 ++ (assignList ys (assignList xs c).2).1,
        (assignList ys (assignList xs c).2).2) := by
  induction xs generalizing c with
  | nil => simp [assignList]
  | cons n l ih =>
    simp only [List.cons_append, assignList, List.append_eq, ih]

theorem assignSeq_eq_assignList (f : String → Option Node) :
    ∀ (ids : List String) (c : Nat),
    assignSeq f ids c = assignList (ids.filterMap f) c := by
  intro ids
  induction ids with
  | nil => intro c; rfl
  | cons id rest ih =>
    intro c
    simp only [assignSeq, List.filterMap_cons]
    cases hf : f id with
    | none => exact ih c
    | some node => simp only [assignList, ih]

theorem assignList_map_eraseLid (l : List Node) (c : Nat) :
    (assignList l c).1.map eraseLid = l.map eraseLid := by
  induction l generalizing c with
  | nil => rfl
  | cons n rest ih =>
    simp only [assignList, List.map_cons, eraseLid_assignNode, ih]

theorem assignList_map_id (l : List Node) (c : Nat) :
    (assignList l c).1.map Node.id = l.map Node.id := by
  induction l generalizing c with
  | nil => rfl
  | cons n rest ih =>
    simp only [assignList, List.map_cons, assignNode_id, ih]

theorem assignList_map_type (l : List Node) (c : Nat) :
    (assignList l c).1.map Node.type = l.map Node.type := by
  induction l generalizing c with
  | nil => rfl
  | cons n rest ih =>
    simp only [assignList, List.map_cons, assignNode_type, ih]

theorem assignList_counter_le (l : List Node) (c : Nat) : c ≤ (assignList l c).2 := by
  induction l generalizing c with
  | nil => exact Nat.le.refl
  | cons n rest ih =>
    simp only [assignList]
    exact le_trans (assignNode_counter_le n c) (ih _)

theorem assignList_idem (l : List Node) (c : Nat) :
    assignList (assignList l c).1 c = assignList l c := by
  induction l generalizing c with
  | nil => rfl
  | cons n rest ih =>
    have h1 : assignNode (assignNode n c).1 c = assignNode n c := assignNode_idem n c
    have h2 : (assignNode (assignNode n c).1 c).2 = (assignNode n c).2 := by rw [h1]
    show assignList ((assignNode n c).1 :: (assignList rest (assignNode n c).2).1) c = _
    simp only [assignList, h1, h2, ih]

/-! ## The id-level traversal skeleton -/

theorem visitFold_acc (p : String → Bool) (adj : String → List String) (fuel : Nat) :
    ∀ (l v w : List String),
    l.foldl
      (fun acc m =>
        let r := visitStep p adj fuel m acc.1
        (r.1, acc.2 ++ r.2)) (v, w) =
      ((visitFold p adj fuel l v).1, w ++ (visitFold p adj fuel l v).2) := by
  intro l
  induction l with
  | nil => intro v w; simp [visitFold]
  | cons m rest ih =>
    intro v w
    show rest.foldl _
      ((visitStep p adj fuel m v).1, w ++ (visitStep p adj fuel m v).2) = _
    rw [ih]
    have e3 : visitFold p adj fuel (m :: rest) v =
        ((visitFold p adj fuel rest (visitStep p adj fuel m v).1).1,
          (visitStep p adj fuel m v).2 ++
            (visitFold p adj fuel rest (visitStep p adj fuel m v).1).2) := by
      show rest.foldl _
        ((visitStep p adj fuel m v).1, [] ++ (visitStep p adj fuel m v).2) = _
      rw [List.nil_append, ih]
    rw [e3, List.append_assoc]

theorem visitFold_cons (p : String → Bool) (adj : String → List String)
    (fuel : Nat) (m : String) (rest : List String) (v : List String) :
    visitFold p adj fuel (m :: rest) v =
      ((visitFold p adj fuel rest (visitStep p adj fuel m v).1).1,
        (visitStep p adj fuel m v).2 ++
          (visitFold p adj fuel rest (visitStep p adj fuel m v).1).2) := by
  show rest.foldl _
    ((visitStep p adj fuel m v).1, [] ++ (visitStep p adj fuel m v).2) = _
  rw [List.nil_append, visitFold_acc]

theorem visitStep_succ (p : String → Bool) (adj : String → List String)
    (fuel : Nat) (n : String) (vis : List String) :
    visitStep p adj (fuel + 1) n vis =
      if vis.contains n then (vis, [])
      else if p n then
        ((visitFold p adj fuel (adj n) (n :: vis)).1,
          n :: (visitFold p adj fuel (adj n) (n :: vis)).2)
      else (vis, []) := by
  show (if vis.contains n then ((vis : List String), ([] : List String))
      else if p n then
        (adj n).foldl
          (fun acc m =>
            let r := visitStep p adj fuel m acc.1
            (r.1, acc.2 ++ r.2)) (n :: vis, [n])
      else (vis, [])) = _
  split_ifs with h1 h2
  · rfl
  · exact visitFold_acc p adj fuel (adj n) (n :: vis) [n]
  · rfl

theorem visit_visited_eq (p : String → Bool) (adj : String → List String) :
    ∀ fuel : Nat,
    (∀ n vis, (visitStep p adj fuel n vis).1 =
      (visitStep p adj fuel n vis).2.reverse ++ vis) ∧
    (∀ l vis, (visitFold p adj fuel l vis).1 =
      (visitFold p adj fuel l vis).2.reverse ++ vis) := by
  intro fuel
  induction fuel with
  | zero =>
    constructor
    · intro n vis; rfl
    · intro l
      induction l with
      | nil => intro vis; rfl
      | cons m rest ih =>
        intro vis
        rw [visitFold_cons]
        show (visitFold p adj 0 rest vis).1 =
          (([] : List String) ++ (visitFold p adj 0 rest vis).2).reverse ++ vis
        rw [List.nil_append]
        exact ih vis
  | succ fuel ihf =>
    have hstep : ∀ n vis, (visitStep p adj (fuel + 1) n vis).1 =
        (visitStep p adj (fuel + 1) n vis).2.reverse ++ vis := by
      intro n vis
      rw [visitStep_succ]
      split_ifs with h1 h2
      · rfl
      · show (visitFold p adj fuel (adj n) (n :: vis)).1 = _
        rw [ihf.2]
        simp
      · rfl
    refine ⟨hstep, ?_⟩
    intro l
    induction l with
    | nil => intro vis; rfl
    | cons m rest ih =>
      intro vis
      rw [visitFold_cons]
      show (visitFold p adj (fuel + 1) rest (visitStep p adj (fuel + 1) m vis).1).1 = _
      rw [ih, hstep]
      simp [List.reverse_append, List.append_assoc]

theorem visitStep_visited_eq (p : String → Bool) (adj : String → List String)
    (fuel : Nat) (n : String) (vis : List String) :
    (visitStep p adj fuel n vis).1 = (visitStep p adj fuel n vis).2.reverse ++ vis :=
  (visit_visited_eq p adj fuel).1 n vis

theorem visitFold_visited_eq (p : String → Bool) (adj : String → List String)
    (fuel : Nat) (l vis : List String) :
    (visitFold p adj fuel l vis).1 = (visitFold p adj fuel l vis).2.reverse ++ vis :=
  (visit_visited_eq p adj fuel).2 l vis

theorem visitStep_visited_mono (p : String → Bool) (adj : String → List String)
    (fuel : Nat) (n : String) (vis : List String) :
    vis ⊆ (visitStep p adj fuel n vis).1 := by
  intro x hx
  rw [visitStep_visited_eq]
  exact List.mem_append_right _ hx

theorem visitFold_visited_mono (p : String → Bool) (adj : String → List String)
    (fuel : Nat) (l vis : List String) :
    vis ⊆ (visitFold p adj fuel l vis).1 := by
  intro x hx
  rw [visitFold_visited_eq]
  exact List.mem_append_right _ hx

theorem visit_visited_nodup (p : String → Bool) (adj : String → List String) :
    ∀ fuel : Nat,
    (∀ n vis, vis.Nodup → (visitStep p adj fuel n vis).1.Nodup) ∧
    (∀ l vis, vis.Nodup → (visitFold p adj fuel l vis).1.Nodup) := by
  intro fuel
  induction fuel with
  | zero =>
    constructor
    · intro n vis h; exact h
    · intro l
      induction l with
      | nil => intro vis h; exact h
      | cons m rest ih =>
        intro vis h
        rw [visitFold_cons]
        show (visitFold p adj 0 rest (visitStep p adj 0 m vis).1).1.Nodup
        exact ih _ h
  | succ fuel ihf =>
    have hstep : ∀ n vis, vis.Nodup → (visitStep p adj (fuel + 1) n vis).1.Nodup := by
      intro n vis h
      rw [visitStep_succ]
      split_ifs with h1 h2
      · exact h
      · show (visitFold p adj fuel (adj n) (n :: vis)).1.Nodup
        refine ihf.2 _ _ (List.nodup_cons.mpr ⟨?_, h⟩)
        intro hmem
        exact h1 (by simpa using hmem)
      · exact h
    refine ⟨hstep, ?_⟩
    intro l
    induction l with
    | nil => intro vis h; exact h
    | cons m rest ih =>
      intro vis h
      rw [visitFold_cons]
      show (visitFold p adj (fuel + 1) rest (visitStep p adj (fuel + 1) m vis).1).1.Nodup
      exact ih _ (hstep m vis h)

theorem visit_news_present (p : String → Bool) (adj : String → List String) :
    ∀ fuel : Nat,
    (∀ n vis, ∀ id ∈ (visitStep p adj fuel n vis).2, p id = true) ∧
    (∀ l vis, ∀ id ∈ (visitFold p adj fuel l vis).2, p id = true) := by
  intro fuel
  induction fuel with
  | zero =>
    constructor
    · intro n vis id hid
      exact absurd hid (List.not_mem_nil id)
    · intro l
      induction l with
      | nil => intro vis id hid; exact absurd hid (List.not_mem_nil id)
      | cons m rest ih =>
        intro vis id hid
        rw [visitFold_cons] at hid
        rcases List.mem_append.mp hid with hl | hr
        · exact absurd hl (List.not_mem_nil id)
        · exact ih _ id hr
  | succ fuel ihf =>
    have hstep : ∀ n vis, ∀ id ∈ (visitStep p adj (fuel + 1) n vis).2, p id = true := by
      intro n vis id hid
      rw [visitStep_succ] at hid
      split_ifs at hid with h1 h2
      · exact absurd hid (List.not_mem_nil id)
      · rcases List.mem_cons.mp hid with rfl | hid'
        · exact h2
        · exact ihf.2 _ _ id hid'
      · exact absurd hid (List.not_mem_nil id)
    refine ⟨hstep, ?_⟩
    intro l
    induction l with
    | nil => intro vis id hid; exact absurd hid (List.not_mem_nil id)
    | cons m rest ih =>
      intro vis id hid
      rw [visitFold_cons] at hid
      rcases List.mem_append.mp hid with hl | hr
      · exact hstep m vis id hl
      · exact ih _ id hr

theorem visit_news_sources (p : String → Bool) (adj : String → List String) :
    ∀ fuel : Nat,
    (∀ n vis, ∀ id ∈ (visitStep p adj fuel n vis).2, id = n ∨ ∃ m, id ∈ adj m) ∧
    (∀ l vis, ∀ id ∈ (visitFold p adj fuel l vis).2, id ∈ l ∨ ∃ m, id ∈ adj m) := by
  intro fuel
  induction fuel with
  | zero =>
    constructor
    · intro n vis id hid
      exact absurd hid (List.not_mem_nil id)
    · intro l
      induction l with
      | nil => intro vis id hid; exact absurd hid (List.not_mem_nil id)
      | cons m rest ih =>
        intro vis id hid
        rw [visitFold_cons] at hid
        rcases List.mem_append.mp hid with hl | hr
        · exact absurd hl (List.not_mem_nil id)
        · rcases ih _ id hr with h | h
          · exact Or.inl (List.mem_cons_of_mem m h)
          · exact Or.inr h
  | succ fuel ihf =>
    have hstep : ∀ n vis, ∀ id ∈ (visitStep p adj (fuel + 1) n vis).2,
        id = n ∨ ∃ m, id ∈ adj m := by
      intro n vis id hid
      rw [visitStep_succ] at hid
      split_ifs at hid with h1 h2
      · exact absurd hid (List.not_mem_nil id)
      · rcases List.mem_cons.mp hid with rfl | hid'
        · exact Or.inl rfl
        · rcases ihf.2 _ _ id hid' with h | h
          · exact Or.inr ⟨n, h⟩
          · exact Or.inr h
      · exact absurd hid (List.not_mem_nil id)
    refine ⟨hstep, ?_⟩
    intro l
    induction l with
    | nil => intro vis id hid; exact absurd hid (List.not_mem_nil id)
    | cons m rest ih =>
      intro vis id hid
      rw [visitFold_cons] at hid
      rcases List.mem_append.mp hid with hl | hr
      · rcases hstep m vis id hl with rfl | h
        · exact Or.inl (List.mem_cons_self _ _)
        · exact Or.inr h
      · rcases ih _ id hr with h | h
        · exact Or.inl (List.mem_cons_of_mem m h)
        · exact Or.inr h

theorem visitFold_root_mem (p : String → Bool) (adj : String → List String)
    (fuel : Nat) :
    ∀ (l vis : List String) (r : String), r ∈ l → p r = true →
    r ∈ (visitFold p adj (fuel + 1) l vis).1 := by
  intro l
  induction l with
  | nil => intro vis r hr _; exact absurd hr (List.not_mem_nil r)
  | cons m rest ih =>
    intro vis r hr hp
    rw [visitFold_cons]
    show r ∈ (visitFold p adj (fuel + 1) rest (visitStep p adj (fuel + 1) m vis).1).1
    rcases List.mem_cons.mp hr with rfl | hr'
    · apply visitFold_visited_mono
      rw [visitStep_succ]
      by_cases h1 : vis.contains r
      · rw [if_pos h1]
        simpa using h1
      · rw [if_neg h1, if_pos hp]
        show r ∈ (visitFold p adj fuel (adj r) (r :: vis)).1
        exact visitFold_visited_mono _ _ _ _ _ (List.mem_cons_self _ _)
    · exact ih _ r hr' hp

/-- Filtering the visitation order through a "has no incoming edge"
predicate recovers precisely the ordered entry list: each entry id
heads its own segment, and every other visited id is an adjacency
target. -/
theorem visitFold_news_filter (p : String → Bool) (adj : String → List String)
    (fuel : Nat) (q : String → Bool)
    (hadj : ∀ m id, id ∈ adj m → q id = false) :
    ∀ (l vis : List String), (∀ r ∈ l, q r = true) → (∀ r ∈ l, p r = true) →
    l.Nodup → (∀ r ∈ l, r ∉ vis) →
    ((visitFold p adj (fuel + 1) l vis).2).filter q = l := by
  intro l
  induction l with
  | nil => intro vis _ _ _ _; rfl
  | cons m rest ih =>
    intro vis hq hp hnd hvis
    have hm : m ∈ m :: rest := List.mem_cons_self _ _
    have hmc : ¬(vis.contains m = true) := by
      intro hc
      exact hvis m hm (by simpa using hc)
    have hstep_news : (visitStep p adj (fuel + 1) m vis).2 =
        m :: (visitFold p adj fuel (adj m) (m :: vis)).2 := by
      rw [visitStep_succ, if_neg hmc, if_pos (hp m hm)]
    have hinner : ((visitFold p adj fuel (adj m) (m :: vis)).2).filter q = [] := by
      apply List.filter_eq_nil_iff.mpr
      intro id hid
      rcases (visit_news_sources p adj fuel).2 (adj m) (m :: vis) id hid with h | ⟨m', hm'⟩
      · simp [hadj m id h]
      · simp [hadj m' id hm']
    rw [visitFold_cons, List.filter_append]
    show ((visitStep p adj (fuel + 1) m vis).2.filter q) ++
      ((visitFold p adj (fuel + 1) rest (visitStep p adj (fuel + 1) m vis).1).2.filter q) = _
    have hrest : ((visitFold p adj (fuel + 1) rest
        (visitStep p adj (fuel + 1) m vis).1).2).filter q = rest := by
      apply ih
      · intro r hr; exact hq r (List.mem_cons_of_mem m hr)
      · intro r hr; exact hp r (List.mem_cons_of_mem m hr)
      · exact (List.nodup_cons.mp hnd).2
      · intro r hr hrvis
        rw [visitStep_visited_eq] at hrvis
        rcases List.mem_append.mp hrvis with hrnews | hrold
        · rw [hstep_news] at hrnews
          rcases List.mem_cons.mp (List.mem_reverse.mp hrnews) with rfl | hrin
          · exact (List.nodup_cons.mp hnd).1 hr
          · rcases (visit_news_sources p adj fuel).2 (adj m) (m :: vis) r hrin with h | ⟨m', hm'⟩
            · have := hadj m r h
              rw [hq r (List.mem_cons_of_mem m hr)] at this
              exact Bool.noConfusion this
            · have := hadj m' r hm'
              rw [hq r (List.mem_cons_of_mem m hr)] at this
              exact Bool.noConfusion this
        · exact hvis r (List.mem_cons_of_mem m hr) hrold
    rw [hstep_news, hrest, List.filter_cons_of_pos (hq m hm)]
    rw [hinner]
    rfl

/-! ## `traverseFlow` factors through the id-level skeleton -/

theorem traverse_eq (f : String → Option Node) (adj : String → List String) :
    ∀ fuel : Nat,
    (∀ (n : String) (st : TravState),
      traverseFlow f adj fuel n st =
        ⟨(visitStep (fun id => (f id).isSome) adj fuel n st.visited).1,
          st.updatedNodes ++
            (assignSeq f
              (visitStep (fun id => (f id).isSome) adj fuel n st.visited).2
              st.counter).1,
          (assignSeq f
            (visitStep (fun id => (f id).isSome) adj fuel n st.visited).2
            st.counter).2⟩) ∧
    (∀ (l : List String) (st : TravState),
      l.foldl (fun s next => traverseFlow f adj fuel next s) st =
        ⟨(visitFold (fun id => (f id).isSome) adj fuel l st.visited).1,
          st.updatedNodes ++
            (assignSeq f
              (visitFold (fun id => (f id).isSome) adj fuel l st.visited).2
              st.counter).1,
          (assignSeq f
            (visitFold (fun id => (f id).isSome) adj fuel l st.visited).2
            st.counter).2⟩) := by
  intro fuel
  induction fuel with
  | zero =>
    constructor
    · intro n st
      cases st
      simp [traverseFlow, visitStep, assignSeq]
    · intro l
      induction l with
      | nil =>
        intro st
        cases st
        simp [visitFold, assignSeq]
      | cons m rest ih =>
        intro st
        rw [List.foldl_cons, show traverseFlow f adj 0 m st = st from rfl, ih st,
          visitFold_cons]
        rfl
  | succ fuel ihf =>
    have hstep : ∀ (n : String) (st : TravState),
        traverseFlow f adj (fuel + 1) n st =
          ⟨(visitStep (fun id => (f id).isSome) adj (fuel + 1) n st.visited).1,
            st.updatedNodes ++
              (assignSeq f
                (visitStep (fun id => (f id).isSome) adj (fuel + 1) n st.visited).2
                st.counter).1,
            (assignSeq f
              (visitStep (fun id => (f id).isSome) adj (fuel + 1) n st.visited).2
              st.counter).2⟩ := by
      intro n st
      rw [visitStep_succ]
      by_cases h1 : st.visited.contains n
      · rw [if_pos h1]
        show (if st.visited.contains n then st else _) = _
        rw [if_pos h1]
        cases st
        simp [assignSeq]
      · rw [if_neg h1]
        show (if st.visited.contains n then st else
          match f n with
          | none => st
          | some node =>
            (adj n).foldl (fun s next => traverseFlow f adj fuel next s)
              ⟨n :: st.visited, st.updatedNodes ++ [(assignNode node st.counter).1],
                (assignNode node st.counter).2⟩) = _
        rw [if_neg h1]
        cases hf : f n with
        | none =>
          have hp : ((f n).isSome) = false := by simp [hf]
          simp only [hf, hp, Bool.false_eq_true, if_false]
          cases st
          simp [assignSeq]
        | some node =>
          have hp : ((f n).isSome) = true := by simp [hf]
          simp only [hf, hp, if_true]
          rw [ihf.2 (adj n)
            ⟨n :: st.visited, st.updatedNodes ++ [(assignNode node st.counter).1],
              (assignNode node st.counter).2⟩]
          have hseq : assignSeq f
              (n :: (visitFold (fun id => (f id).isSome) adj fuel (adj n)
                (n :: st.visited)).2) st.counter =
              ((assignNode node st.counter).1 ::
                (assignSeq f
                  (visitFold (fun id => (f id).isSome) adj fuel (adj n)
                    (n :: st.visited)).2 (assignNode node st.counter).2).1,
                (assignSeq f
                  (visitFold (fun id => (f id).isSome) adj fuel (adj n)
                    (n :: st.visited)).2 (assignNode node st.counter).2).2) := by
            simp only [assignSeq, hf]
          simp [hseq, List.append_assoc]
    refine ⟨hstep, ?_⟩
    intro l
    induction l with
    | nil =>
      intro st
      cases st
      simp [visitFold, assignSeq]
    | cons m rest ih =>
      intro st
      rw [List.foldl_cons, hstep m st, ih, visitFold_cons]
      have happ := assignSeq_eq_assignList f
      rw [show (visitStep (fun id => (f id).isSome) adj (fuel + 1) m st.visited).1 =
        (visitStep (fun id => (f id).isSome) adj (fuel + 1) m st.visited).1 from rfl]
      set p := fun id => (f id).isSome with hp
      set vs := visitStep p adj (fuel + 1) m st.visited with hvs
      set vf := visitFold p adj (fuel + 1) rest vs.1 with hvf
      have hseq2 : assignSeq f (vs.2 ++ vf.2) st.counter =
          ((assignSeq f vs.2 st.counter).1 ++
            (assignSeq f vf.2 (assignSeq f vs.2 st.counter).2).1,
            (assignSeq f vf.2 (assignSeq f vs.2 st.counter).2).2) := by
        rw [assignSeq_eq_assignList, assignSeq_eq_assignList, assignSeq_eq_assignList,
          List.filterMap_append, assignList_append]
      rw [hseq2]
      simp [List.append_assoc]

theorem traverseFold_eq (f : String → Option Node) (adj : String → List String)
    (fuel : Nat) (l : List String) (st : TravState) :
    l.foldl (fun s next => traverseFlow f adj fuel next s) st =
      ⟨(visitFold (fun id => (f id).isSome) adj fuel l st.visited).1,
        st.updatedNodes ++
          (assignSeq f
            (visitFold (fun id => (f id).isSome) adj fuel l st.visited).2
            st.counter).1,
        (assignSeq f
          (visitFold (fun id => (f id).isSome) adj fuel l st.visited).2
          st.counter).2⟩ :=
  (traverse_eq f adj fuel).2 l st

theorem appendOrphans_eq :
    ∀ (nodes : List Node) (st : TravState),
    appendOrphans nodes st =
      ⟨st.visited,
        st.updatedNodes ++
          (assignList (nodes.filter fun n => !(st.visited.contains n.id))
            st.counter).1,
        (assignList (nodes.filter fun n => !(st.visited.contains n.id))
          st.counter).2⟩ := by
  intro nodes
  induction nodes with
  | nil =>
    intro st
    cases st
    simp [appendOrphans, assignList]
  | cons n rest ih =>
    intro st
    show rest.foldl _
      (if st.visited.contains n.id then st
       else ⟨st.visited, st.updatedNodes ++ [(assignNode n st.counter).1],
         (assignNode n st.counter).2⟩) = _
    by_cases h : st.visited.contains n.id
    · rw [if_pos h]
      show appendOrphans rest st = _
      rw [ih st, List.filter_cons_of_neg (by simpa using h)]
    · rw [if_neg h]
      show appendOrphans rest
        ⟨st.visited, st.updatedNodes ++ [(assignNode n st.counter).1],
          (assignNode n st.counter).2⟩ = _
      rw [ih ⟨st.visited, st.updatedNodes ++ [(assignNode n st.counter).1],
        (assignNode n st.counter).2⟩]
      rw [List.filter_cons_of_pos (by simpa using h)]
      show (⟨st.visited,
        (st.updatedNodes ++ [(assignNode n st.counter).1]) ++
          (assignList (rest.filter fun m => !(st.visited.contains m.id))
            (assignNode n st.counter).2).1, _⟩ : TravState) = _
      simp [assignList, List.append_assoc]

/-- The whole renumbering in terms of the id-level traversal: the
visited nodes assigned in visitation order, then the unvisited nodes
assigned in stored order. -/
theorem renumberByFlowSequence_eq (nodes : List Node) (edges : List Edge) :
    renumberByFlowSequence nodes edges =
      (assignSeq (lookupNode nodes) (travNews nodes edges) 1).1 ++
        (assignList
          (nodes.filter fun n => !((travVisit nodes edges).1.contains n.id))
          (assignSeq (lookupNode nodes) (travNews nodes edges) 1).2).1 := by
  cases nodes with
  | nil => rfl
  | cons n0 rest =>
    show (appendOrphans (n0 :: rest)
      ((if ((n0 :: rest).filter fun n =>
          !((edges.map fun e => e.target).contains n.id)).isEmpty
        then [n0]
        else (n0 :: rest).filter fun n =>
          !((edges.map fun e => e.target).contains n.id)).foldl
        (fun s r => traverseFlow (lookupNode (n0 :: rest)) (adjacency edges)
          ((n0 :: rest).length + 1) r.id s)
        ⟨[], [], 1⟩)).updatedNodes = _
    rw [show ∀ (l : List Node) (st : TravState),
        l.foldl (fun s r => traverseFlow (lookupNode (n0 :: rest)) (adjacency edges)
          ((n0 :: rest).length + 1) r.id s) st =
        (l.map fun n => n.id).foldl
          (fun s rid => traverseFlow (lookupNode (n0 :: rest)) (adjacency edges)
            ((n0 :: rest).length + 1) rid s) st
      from fun l st =>
        (List.foldl_map (fun n : Node => n.id)
          (fun s rid => traverseFlow (lookupNode (n0 :: rest)) (adjacency edges)
            ((n0 :: rest).length + 1) rid s) l st).symm]
    rw [traverseFold_eq, appendOrphans_eq]
    show _ ++ _ = _
    have hroot : ((if ((n0 :: rest).filter fun n =>
          !((edges.map fun e => e.target).contains n.id)).isEmpty
        then [n0]
        else (n0 :: rest).filter fun n =>
          !((edges.map fun e => e.target).contains n.id)).map fun n => n.id) =
        rootIds (n0 :: rest) edges := rfl
    rw [hroot]
    rfl

/-! ## Process logical ids: uniqueness and monotonicity -/

theorem processLogicalIds_cons (n : Node) (l : List Node) :
    processLogicalIds (n :: l) =
      if isSkipType n.type then processLogicalIds l
      else n.data.logical_id :: processLogicalIds l := by
  by_cases h : isSkipType n.type <;>
    simp [processLogicalIds, List.filter_cons, h]

theorem assignList_process_lids (l : List Node) (c : Nat) :
    ∃ cs : List Nat, List.Pairwise (· < ·) cs
      ∧ (∀ k ∈ cs, c ≤ k ∧ k < (assignList l c).2)
      ∧ processLogicalIds (assignList l c).1 =
          cs.map (fun k => "1.1.1." ++ toString k) := by
  induction l generalizing c with
  | nil => exact ⟨[], by simp, by simp, rfl⟩
  | cons n rest ih =>
    obtain ⟨cs, hpw, hbound, heq⟩ := ih (assignNode n c).2
    have hcons : (assignList (n :: rest) c).1 =
        (assignNode n c).1 :: (assignList rest (assignNode n c).2).1 := rfl
    have hcnt : (assignList (n :: rest) c).2 =
        (assignList rest (assignNode n c).2).2 := rfl
    by_cases h : isSkipType n.type
    · have hc : (assignNode n c).2 = c := by simp [assignNode, h]
      refine ⟨cs, hpw, ?_, ?_⟩
      · intro k hk
        rw [hcnt]
        exact ⟨hc ▸ (hbound k hk).1, (hbound k hk).2⟩
      · rw [hcons, processLogicalIds_cons, assignNode_type, if_pos h, heq]
    · have hc : (assignNode n c).2 = c + 1 := by simp [assignNode, h]
      have hlid : ((assignNode n c).1).data.logical_id = "1.1.1." ++ toString c := by
        simp [assignNode, h]
      refine ⟨c :: cs, ?_, ?_, ?_⟩
      · refine List.pairwise_cons.mpr ⟨?_, hpw⟩
        intro k hk
        have := (hbound k hk).1
        rw [hc] at this
        omega
      · intro k hk
        rw [hcnt]
        rcases List.mem_cons.mp hk with hkc | hk'
        · have hle := assignList_counter_le rest (assignNode n c).2
          have hlt : c < (assignNode n c).2 := by omega
          exact ⟨le_of_eq hkc.symm, by omega⟩
        · have hb := hbound k hk'
          have hcc : c ≤ (assignNode n c).2 := by omega
          exact ⟨le_trans hcc hb.1, hb.2⟩
      · rw [hcons, processLogicalIds_cons, assignNode_type, if_neg h, heq, hlid,
          List.map_cons]

/-- **C4.** After renumbering, the Process (`'default'`) nodes carry
logical ids `1.1.1.<k>` with strictly increasing `k` in output order —
the output lists nodes in traversal order (roots first, then their
descendants in visitation order, then orphans), so ids strictly
increase along every traversal path from a root — and the Process
logical ids are pairwise distinct. -/
theorem renumber_process_ids_unique_and_monotone (nodes : List Node) (edges : List Edge) :
    ∃ cs : List Nat, List.Pairwise (· < ·) cs
      ∧ processLogicalIds (renumberByFlowSequence nodes edges) =
          cs.map (fun k => "1.1.1." ++ toString k)
      ∧ (processLogicalIds (renumberByFlowSequence nodes edges)).Nodup := by
  have happ : ∀ (a b : List Node),
      processLogicalIds (a ++ b) = processLogicalIds a ++ processLogicalIds b := by
    intro a b
    simp [processLogicalIds, List.filter_append]
  have hfmt : Function.Injective (fun k : Nat => "1.1.1." ++ toString k) := by
    intro a b hab
    exact lid_format_injective a b hab
  rw [renumberByFlowSequence_eq, assignSeq_eq_assignList]
  obtain ⟨cs₁, h1, hb1, he1⟩ :=
    assignList_process_lids ((travNews nodes edges).filterMap (lookupNode nodes)) 1
  obtain ⟨cs₂, h2, hb2, he2⟩ :=
    assignList_process_lids
      (nodes.filter fun n => !((travVisit nodes edges).1.contains n.id))
      (assignList ((travNews nodes edges).filterMap (lookupNode nodes)) 1).2
  refine ⟨cs₁ ++ cs₂, ?_, ?_, ?_⟩
  · rw [List.pairwise_append]
    refine ⟨h1, h2, ?_⟩
    intro x hx y hy
    exact lt_of_lt_of_le (hb1 x hx).2 (hb2 y hy).1
  · rw [happ, he1, he2, List.map_append]
  · rw [happ, he1, he2, ← List.map_append]
    refine List.Nodup.map hfmt ?_
    rw [List.nodup_append]
    refine ⟨h1.imp ?_, h2.imp ?_, ?_⟩
    · intro a b hab; exact Nat.ne_of_lt hab
    · intro a b hab; exact Nat.ne_of_lt hab
    · intro x hx hx2
      exact absurd (lt_of_lt_of_le (hb1 x hx).2 (hb2 x hx2).1) (lt_irrefl x)

/-! ## `lookupNode` facts -/

theorem lookupNode_some_id (nodes : List Node) (id : String) (n : Node)
    (h : lookupNode nodes id = some n) : n.id = id ∧ n ∈ nodes := by
  unfold lookupNode at h
  have h1 := List.find?_some h
  have h2 := List.mem_of_find?_eq_some h
  exact ⟨by simpa using h1, by simpa using h2⟩

theorem lookupNode_isSome_iff (nodes : List Node) (id : String) :
    (lookupNode nodes id).isSome = true ↔ id ∈ nodes.map Node.id := by
  unfold lookupNode
  rw [List.find?_isSome]
  constructor
  · rintro ⟨x, hx, hpx⟩
    have : x.id = id := by simpa using hpx
    exact this ▸ List.mem_map_of_mem Node.id (by simpa using hx)
  · intro hid
    obtain ⟨n, hn, hnid⟩ := List.mem_map.mp hid
    exact ⟨n, by simpa using hn, by simpa using hnid⟩

theorem lookupNode_mem_self (nodes : List Node) (hnd : (nodes.map Node.id).Nodup)
    (x : Node) (hx : x ∈ nodes) : lookupNode nodes x.id = some x := by
  have hs : (lookupNode nodes x.id).isSome = true :=
    (lookupNode_isSome_iff nodes x.id).mpr (List.mem_map_of_mem Node.id hx)
  obtain ⟨m, hm⟩ := Option.isSome_iff_exists.mp hs
  obtain ⟨hmid, hmmem⟩ := lookupNode_some_id nodes x.id m hm
  have hxm : m = x :=
    List.inj_on_of_nodup_map hnd hmmem hx (by rw [hmid])
  rw [hm, hxm]

theorem filterMap_lookup_map_id (nodes : List Node) :
    ∀ ids : List String, (∀ id ∈ ids, (lookupNode nodes id).isSome = true) →
    ((ids.filterMap (lookupNode nodes)).map Node.id) = ids := by
  intro ids
  induction ids with
  | nil => intro _; rfl
  | cons id rest ih =>
    intro hp
    cases hf : lookupNode nodes id with
    | none =>
      have := hp id (List.mem_cons_self _ _)
      rw [hf] at this
      exact absurd this (by simp)
    | some n =>
      rw [show (id :: rest).filterMap (lookupNode nodes) =
        n :: rest.filterMap (lookupNode nodes) from by
          rw [List.filterMap_cons, hf]]
      rw [List.map_cons, (lookupNode_some_id nodes id n hf).1,
        ih (fun i hi => hp i (List.mem_cons_of_mem _ hi))]

/-! ## The renumbering permutes the nodes and changes only logical ids -/

theorem travNews_present (nodes : List Node) (edges : List Edge) :
    ∀ id ∈ travNews nodes edges, (lookupNode nodes id).isSome = true :=
  (visit_news_present (presentIn nodes) (adjacency edges) (nodes.length + 1)).2
    (rootIds nodes edges) []

theorem travVisit_visited_eq (nodes : List Node) (edges : List Edge) :
    (travVisit nodes edges).1 = (travNews nodes edges).reverse := by
  have h := visitFold_visited_eq (presentIn nodes) (adjacency edges)
    (nodes.length + 1) (rootIds nodes edges) []
  simpa [travVisit, travNews] using h

theorem travNews_nodup (nodes : List Node) (edges : List Edge) :
    (travNews nodes edges).Nodup := by
  have h := (visit_visited_nodup (presentIn nodes) (adjacency edges)
    (nodes.length + 1)).2 (rootIds nodes edges) [] List.nodup_nil
  rw [show (visitFold (presentIn nodes) (adjacency edges) (nodes.length + 1)
      (rootIds nodes edges) []).1 = (travVisit nodes edges).1 from rfl,
    travVisit_visited_eq] at h
  exact List.nodup_reverse.mp h

theorem mem_travVisit_iff (nodes : List Node) (edges : List Edge) (id : String) :
    id ∈ (travVisit nodes edges).1 ↔ id ∈ travNews nodes edges := by
  rw [travVisit_visited_eq]
  exact List.mem_reverse

theorem renumber_perm_eraseLid (nodes : List Node) (edges : List Edge)
    (hnd : (nodes.map Node.id).Nodup) :
    ((renumberByFlowSequence nodes edges).map eraseLid).Perm (nodes.map eraseLid) := by
  rw [renumberByFlowSequence_eq, List.map_append, assignSeq_eq_assignList,
    assignList_map_eraseLid, assignList_map_eraseLid]
  have hp : ∀ id ∈ travNews nodes edges, (lookupNode nodes id).isSome = true :=
    travNews_present nodes edges
  have hNnd : (travNews nodes edges).Nodup := travNews_nodup nodes edges
  have hconv : ∀ n : Node,
      (travVisit nodes edges).1.contains n.id = true ↔ n.id ∈ travNews nodes edges := by
    intro n
    rw [show ((travVisit nodes edges).1.contains n.id = true) ↔
      n.id ∈ (travVisit nodes edges).1 from by simp]
    exact mem_travVisit_iff nodes edges n.id
  have hA : (((travNews nodes edges).filterMap (lookupNode nodes)).map eraseLid).Perm
      ((nodes.filter fun n => (travVisit nodes edges).1.contains n.id).map eraseLid) := by
    have hidL : (((travNews nodes edges).filterMap (lookupNode nodes)).map
        eraseLid).map Node.id = travNews nodes edges := by
      rw [List.map_map, show Node.id ∘ eraseLid = Node.id from funext fun n => rfl,
        filterMap_lookup_map_id nodes (travNews nodes edges) hp]
    have hidR : (((nodes.filter fun n =>
        (travVisit nodes edges).1.contains n.id).map eraseLid).map Node.id) =
        ((nodes.filter fun n => (travVisit nodes edges).1.contains n.id).map Node.id) := by
      rw [List.map_map, show Node.id ∘ eraseLid = Node.id from funext fun n => rfl]
    refine (List.perm_ext_iff_of_nodup ?_ ?_).mpr ?_
    · exact List.Nodup.of_map Node.id (by rw [hidL]; exact hNnd)
    · refine List.Nodup.of_map Node.id ?_
      rw [hidR]
      exact ((List.filter_sublist nodes).map Node.id).nodup hnd
    · intro x
      constructor
      · intro hx
        obtain ⟨n, hn, hxn⟩ := List.mem_map.mp hx
        obtain ⟨id, hid, hfid⟩ := List.mem_filterMap.mp hn
        obtain ⟨hnid, hnmem⟩ := lookupNode_some_id nodes id n hfid
        subst hxn
        refine List.mem_map_of_mem eraseLid (List.mem_filter.mpr ⟨hnmem, ?_⟩)
        exact (hconv n).mpr (hnid ▸ hid)
      · intro hx
        obtain ⟨n, hn, hxn⟩ := List.mem_map.mp hx
        obtain ⟨hnmem, hcont⟩ := List.mem_filter.mp hn
        subst hxn
        refine List.mem_map_of_mem eraseLid (List.mem_filterMap.mpr
          ⟨n.id, (hconv n).mp hcont, ?_⟩)
        exact lookupNode_mem_self nodes hnd n hnmem
  refine (hA.append_right _).trans ?_
  rw [← List.map_append]
  exact (List.filter_append_perm _ nodes).map eraseLid

/-- **C10 (amended).** When the input node list has pairwise-distinct
ids, the renumbering returns exactly the input nodes — each exactly
once, possibly reordered — with every field other than
`data.logical_id` unchanged (the edge list is only read, never
returned or modified).  With duplicate ids a node can be dropped, see
the counterexample. -/
theorem renumber_nodes_preserved (nodes : List Node) (edges : List Edge)
    (hnd : (nodes.map Node.id).Nodup) :
    ((renumberByFlowSequence nodes edges).map eraseLid).Perm (nodes.map eraseLid)
    ∧ (renumberByFlowSequence nodes edges).length = nodes.length := by
  refine ⟨renumber_perm_eraseLid nodes edges hnd, ?_⟩
  have h := (renumber_perm_eraseLid nodes edges hnd).length_eq
  simpa using h

/-- Witness for `renumber_nodes_preserved` on a concrete two-node
graph. -/
theorem renumber_nodes_preserved_witness :
    (c10nodes.map Node.id).Nodup
    ∧ ((renumberByFlowSequence c10nodes c10edges).map eraseLid).Perm
        (c10nodes.map eraseLid)
    ∧ (renumberByFlowSequence c10nodes c10edges).length = c10nodes.length :=
  ⟨by decide, (renumber_nodes_preserved c10nodes c10edges (by decide)).1,
    (renumber_nodes_preserved c10nodes c10edges (by decide)).2⟩

/-- Counterexample to **C10** as stated (over *every* node list): with
two input nodes sharing an id, the renumbering returns only one node —
`nodeMap` collapses the id and the orphan pass skips every visited
id. -/
theorem renumber_drops_duplicate_id_node :
    (renumberByFlowSequence c10dupNodes []).length = 1
    ∧ c10dupNodes.length = 2 := by
  decide

/-! ## Towards idempotence of the renumbering -/

theorem assignSeq_append (f : String → Option Node) :
    ∀ (xs ys : List String) (c : Nat),
    assignSeq f (xs ++ ys) c =
      ((assignSeq f xs c).1 ++ (assignSeq f ys (assignSeq f xs c).2).1,
        (assignSeq f ys (assignSeq f xs c).2).2) := by
  intro xs
  induction xs with
  | nil => intro ys c; rfl
  | cons id xs' ih =>
    intro ys c
    cases hf : f id with
    | none =>
      simp only [List.cons_append, assignSeq, hf]
      exact ih ys c
    | some n =>
      simp only [List.cons_append, assignSeq, hf, List.append_eq, ih]

theorem assignSeq_congr_assigned (f g : String → Option Node) :
    ∀ (ids : List String) (c : Nat),
    (∀ xs id ys, ids = xs ++ id :: ys →
      g id = (f id).map fun n => (assignNode n (assignSeq f xs c).2).1) →
    assignSeq g ids c = assignSeq f ids c := by
  intro ids
  induction ids with
  | nil => intro c _; rfl
  | cons id0 rest ih =>
    intro c hrel
    have h0 := hrel [] id0 rest rfl
    cases hf : f id0 with
    | none =>
      have hg : g id0 = none := by
        rw [h0, hf]
        rfl
      show assignSeq g (id0 :: rest) c = assignSeq f (id0 :: rest) c
      simp only [assignSeq, hf, hg]
      apply ih
      intro xs id ys hdecomp
      have h := hrel (id0 :: xs) id ys (by rw [hdecomp]; rfl)
      simpa only [assignSeq, hf] using h
    | some n =>
      have hg : g id0 = some ((assignNode n c).1) := by
        rw [h0, hf]
        rfl
      show assignSeq g (id0 :: rest) c = assignSeq f (id0 :: rest) c
      simp only [assignSeq, hf, hg, assignNode_idem n c]
      rw [ih ((assignNode n c).2) ?_]
      intro xs id ys hdecomp
      have h := hrel (id0 :: xs) id ys (by rw [hdecomp]; rfl)
      simpa only [assignSeq, hf] using h

theorem filter_map_id_comm (l : List Node) (q : String → Bool) :
    (l.filter fun n => q n.id).map Node.id = (l.map Node.id).filter q := by
  induction l with
  | nil => rfl
  | cons n rest ih =>
    by_cases h : q n.id = true
    · simp [List.filter_cons, h, ih]
    · simp [List.filter_cons, h, ih]

theorem rootIds_eq (ns : List Node) (es : List Edge) :
    rootIds ns es =
      if ((ns.map Node.id).filter (noIncoming es)).isEmpty
      then (ns.map Node.id).take 1
      else (ns.map Node.id).filter (noIncoming es) := by
  have hfm : (ns.filter fun n =>
      !((es.map fun e => e.target).contains n.id)).map Node.id =
      (ns.map Node.id).filter (noIncoming es) :=
    filter_map_id_comm ns (noIncoming es)
  show ((if (ns.filter fun n =>
      !((es.map fun e => e.target).contains n.id)).isEmpty
    then ns.take 1
    else ns.filter fun n =>
      !((es.map fun e => e.target).contains n.id)).map fun n => n.id) = _
  by_cases hc : (ns.filter fun n =>
      !((es.map fun e => e.target).contains n.id)) = []
  · have h1 : (ns.filter fun n =>
        !((es.map fun e => e.target).contains n.id)).isEmpty = true := by
      rw [List.isEmpty_iff]
      exact hc
    have h2 : ((ns.map Node.id).filter (noIncoming es)).isEmpty = true := by
      rw [List.isEmpty_iff, ← hfm, hc]
      rfl
    rw [if_pos h1, if_pos h2, List.map_take]
  · have h1 : ¬((ns.filter fun n =>
        !((es.map fun e => e.target).contains n.id)).isEmpty = true) := by
      rw [List.isEmpty_iff]
      exact hc
    have h2 : ¬(((ns.map Node.id).filter (noIncoming es)).isEmpty = true) := by
      rw [List.isEmpty_iff, ← hfm]
      intro hmapnil
      exact hc (List.map_eq_nil_iff.mp hmapnil)
    rw [if_neg h1, if_neg h2]
    exact hfm

theorem renumber_map_id (nodes : List Node) (edges : List Edge) :
    (renumberByFlowSequence nodes edges).map Node.id =
      travNews nodes edges ++
        (nodes.filter fun n => !((travVisit nodes edges).1.contains n.id)).map
          Node.id := by
  rw [renumberByFlowSequence_eq, List.map_append, assignSeq_eq_assignList,
    assignList_map_id, assignList_map_id,
    filterMap_lookup_map_id nodes (travNews nodes edges) (travNews_present nodes edges)]

theorem assignList_mem_id (l : List Node) (c : Nat) :
    ∀ x ∈ (assignList l c).1, ∃ y ∈ l, x.id = y.id := by
  induction l generalizing c with
  | nil => intro x hx; exact absurd hx (List.not_mem_nil x)
  | cons n rest ih =>
    intro x hx
    have hcons : (assignList (n :: rest) c).1 =
        (assignNode n c).1 :: (assignList rest (assignNode n c).2).1 := rfl
    rw [hcons] at hx
    rcases List.mem_cons.mp hx with hx0 | hx'
    · exact ⟨n, List.mem_cons_self _ _, by rw [hx0, assignNode_id]⟩
    · obtain ⟨y, hy, hxy⟩ := ih _ x hx'
      exact ⟨y, List.mem_cons_of_mem _ hy, hxy⟩

theorem renumber_map_id_nodup (nodes : List Node) (edges : List Edge)
    (hnd : (nodes.map Node.id).Nodup) :
    ((renumberByFlowSequence nodes edges).map Node.id).Nodup := by
  rw [renumber_map_id, List.nodup_append]
  refine ⟨travNews_nodup nodes edges,
    ((List.filter_sublist nodes).map Node.id).nodup hnd, ?_⟩
  intro id hidN hidO
  obtain ⟨n, hn, hnid⟩ := List.mem_map.mp hidO
  have hfil := List.mem_filter.mp hn
  have hvis : n.id ∈ (travVisit nodes edges).1 :=
    (mem_travVisit_iff nodes edges n.id).mpr (hnid ▸ hidN)
  have hcont : (travVisit nodes edges).1.contains n.id = true := by
    simpa using hvis
  rw [hcont] at hfil
  exact absurd hfil.2 (by simp)

theorem mem_renumber_ids_iff (nodes : List Node) (edges : List Edge) (id : String) :
    id ∈ (renumberByFlowSequence nodes edges).map Node.id ↔
      id ∈ nodes.map Node.id := by
  rw [renumber_map_id, List.mem_append]
  constructor
  · rintro (hN | hO)
    · exact (lookupNode_isSome_iff nodes id).mp (travNews_present nodes edges id hN)
    · obtain ⟨n, hn, hnid⟩ := List.mem_map.mp hO
      exact hnid ▸ List.mem_map_of_mem Node.id (List.mem_filter.mp hn).1
  · intro hmem
    obtain ⟨n, hn, hnid⟩ := List.mem_map.mp hmem
    by_cases hc : (travVisit nodes edges).1.contains n.id = true
    · left
      have hv : n.id ∈ (travVisit nodes edges).1 := by simpa using hc
      exact hnid ▸ (mem_travVisit_iff nodes edges n.id).mp hv
    · right
      refine hnid ▸ List.mem_map_of_mem Node.id (List.mem_filter.mpr ⟨hn, ?_⟩)
      have hnot : n.id ∉ (travVisit nodes edges).1 := by simpa using hc
      simpa using hnot

theorem presentIn_renumber_eq (nodes : List Node) (edges : List Edge) :
    presentIn (renumberByFlowSequence nodes edges) = presentIn nodes := by
  funext id
  show (lookupNode (renumberByFlowSequence nodes edges) id).isSome =
    (lookupNode nodes id).isSome
  have h1 := lookupNode_isSome_iff (renumberByFlowSequence nodes edges) id
  have h2 := lookupNode_isSome_iff nodes id
  have h3 := mem_renumber_ids_iff nodes edges id
  by_cases hb : (lookupNode nodes id).isSome = true
  · have hmem : id ∈ nodes.map Node.id := h2.mp hb
    have ha : (lookupNode (renumberByFlowSequence nodes edges) id).isSome = true :=
      h1.mpr (h3.mpr hmem)
    rw [ha, hb]
  · have hb' : (lookupNode nodes id).isSome = false := by
      cases h : (lookupNode nodes id).isSome
      · rfl
      · exact absurd h hb
    have ha' : (lookupNode (renumberByFlowSequence nodes edges) id).isSome = false := by
      cases h : (lookupNode (renumberByFlowSequence nodes edges) id).isSome
      · rfl
      · exact absurd (h2.mpr (h3.mp (h1.mp h))) hb
    rw [ha', hb']

theorem orphan_no_root (nodes : List Node) (edges : List Edge) (n : Node)
    (hn : n ∈ nodes) (hq : noIncoming edges n.id = true) :
    (travVisit nodes edges).1.contains n.id = true := by
  have hmem : n.id ∈ (nodes.map Node.id).filter (noIncoming edges) :=
    List.mem_filter.mpr ⟨List.mem_map_of_mem Node.id hn, hq⟩
  have hne : ¬(((nodes.map Node.id).filter (noIncoming edges)).isEmpty = true) := by
    intro hEmpty
    rw [List.isEmpty_iff] at hEmpty
    rw [hEmpty] at hmem
    exact absurd hmem (List.not_mem_nil _)
  have hroot : n.id ∈ rootIds nodes edges := by
    rw [rootIds_eq, if_neg hne]
    exact hmem
  have hp : presentIn nodes n.id = true :=
    (lookupNode_isSome_iff nodes n.id).mpr (List.mem_map_of_mem Node.id hn)
  have hv : n.id ∈ (travVisit nodes edges).1 :=
    visitFold_root_mem (presentIn nodes) (adjacency edges) nodes.length
      (rootIds nodes edges) [] n.id hroot hp
  simpa using hv

theorem adjacency_targets (edges : List Edge) (m id : String)
    (h : id ∈ adjacency edges m) : noIncoming edges id = false := by
  unfold adjacency at h
  obtain ⟨e, he, heid⟩ := List.mem_map.mp h
  have hm : id ∈ edges.map (fun e => e.target) :=
    heid ▸ List.mem_map_of_mem _ (List.mem_filter.mp he).1
  simp [noIncoming, hm]

theorem travNews_filter_roots (nodes : List Node) (edges : List Edge)
    (hnd : (nodes.map Node.id).Nodup) :
    (travNews nodes edges).filter (noIncoming edges) =
      (nodes.map Node.id).filter (noIncoming edges) := by
  by_cases hc : ((nodes.map Node.id).filter (noIncoming edges)).isEmpty = true
  · rw [List.isEmpty_iff] at hc
    rw [hc]
    apply List.filter_eq_nil_iff.mpr
    intro id hid
    have hidmem : id ∈ nodes.map Node.id :=
      (lookupNode_isSome_iff nodes id).mp (travNews_present nodes edges id hid)
    exact (List.filter_eq_nil_iff.mp hc) id hidmem
  · have hroots : rootIds nodes edges =
        (nodes.map Node.id).filter (noIncoming edges) := by
      rw [rootIds_eq, if_neg hc]
    show (visitFold (presentIn nodes) (adjacency edges) (nodes.length + 1)
      (rootIds nodes edges) []).2.filter (noIncoming edges) = _
    rw [← hroots]
    apply visitFold_news_filter
    · intro m id hadj
      exact adjacency_targets edges m id hadj
    · intro r hr
      rw [hroots] at hr
      exact (List.mem_filter.mp hr).2
    · intro r hr
      rw [hroots] at hr
      exact (lookupNode_isSome_iff nodes r).mpr (List.mem_filter.mp hr).1
    · rw [hroots]
      exact hnd.filter _
    · intro r _ hrv
      exact absurd hrv (List.not_mem_nil r)

theorem orphanIds_filter_nil (nodes : List Node) (edges : List Edge) :
    (((nodes.filter fun n => !((travVisit nodes edges).1.contains n.id)).map
      Node.id).filter (noIncoming edges)) = [] := by
  apply List.filter_eq_nil_iff.mpr
  intro id hid hq
  obtain ⟨n, hn, hnid⟩ := List.mem_map.mp hid
  have hfil := List.mem_filter.mp hn
  have hcont := orphan_no_root nodes edges n hfil.1 (by rw [hnid]; exact hq)
  rw [hcont] at hfil
  exact absurd hfil.2 (by simp)

theorem out_ids_filter (nodes : List Node) (edges : List Edge)
    (hnd : (nodes.map Node.id).Nodup) :
    (((renumberByFlowSequence nodes edges).map Node.id).filter (noIncoming edges)) =
      ((nodes.map Node.id).filter (noIncoming edges)) := by
  rw [renumber_map_id, List.filter_append, travNews_filter_roots nodes edges hnd,
    orphanIds_filter_nil, List.append_nil]

theorem renumber_length (nodes : List Node) (edges : List Edge)
    (hnd : (nodes.map Node.id).Nodup) :
    (renumberByFlowSequence nodes edges).length = nodes.length := by
  have h := (renumber_perm_eraseLid nodes edges hnd).length_eq
  simpa using h

theorem renumber_take1_fallback (nodes : List Node) (edges : List Edge)
    (hc : ((nodes.map Node.id).filter (noIncoming edges)).isEmpty = true) :
    ((renumberByFlowSequence nodes edges).map Node.id).take 1 =
      (nodes.map Node.id).take 1 := by
  cases nodes with
  | nil => rfl
  | cons n0 rest =>
    have hroot : rootIds (n0 :: rest) edges = [n0.id] := by
      rw [rootIds_eq, if_pos hc]
      rfl
    have hp : presentIn (n0 :: rest) n0.id = true :=
      (lookupNode_isSome_iff (n0 :: rest) n0.id).mpr
        (List.mem_map_of_mem Node.id (List.mem_cons_self _ _))
    have hnews : ∃ tail, travNews (n0 :: rest) edges = n0.id :: tail := by
      show ∃ tail, (visitFold (presentIn (n0 :: rest)) (adjacency edges)
        ((n0 :: rest).length + 1) (rootIds (n0 :: rest) edges) []).2 = n0.id :: tail
      rw [hroot, visitFold_cons, visitStep_succ, if_neg (by simp), if_pos hp]
      exact ⟨_, List.cons_append _ _ _⟩
    obtain ⟨tail, htail⟩ := hnews
    rw [renumber_map_id, htail]
    rfl

theorem rootIds_renumber_eq (nodes : List Node) (edges : List Edge)
    (hnd : (nodes.map Node.id).Nodup) :
    rootIds (renumberByFlowSequence nodes edges) edges = rootIds nodes edges := by
  rw [rootIds_eq (renumberByFlowSequence nodes edges) edges, rootIds_eq nodes edges,
    out_ids_filter nodes edges hnd]
  by_cases hc : ((nodes.map Node.id).filter (noIncoming edges)).isEmpty = true
  · rw [if_pos hc, if_pos hc]
    exact renumber_take1_fallback nodes edges hc
  · rw [if_neg hc, if_neg hc]

theorem travVisit_renumber_eq (nodes : List Node) (edges : List Edge)
    (hnd : (nodes.map Node.id).Nodup) :
    travVisit (renumberByFlowSequence nodes edges) edges = travVisit nodes edges := by
  unfold travVisit
  rw [presentIn_renumber_eq nodes edges, rootIds_renumber_eq nodes edges hnd,
    renumber_length nodes edges hnd]

theorem travNews_renumber_eq (nodes : List Node) (edges : List Edge)
    (hnd : (nodes.map Node.id).Nodup) :
    travNews (renumberByFlowSequence nodes edges) edges = travNews nodes edges :=
  congrArg Prod.snd (travVisit_renumber_eq nodes edges hnd)

/-- Looking a visited id up in the renumbered output returns exactly
the input node re-assigned at the counter its position in the
visitation order dictates. -/
theorem lookup_renumber_assigned (nodes : List Node) (edges : List Edge)
    (hnd : (nodes.map Node.id).Nodup) :
    ∀ xs id ys, travNews nodes edges = xs ++ id :: ys →
    lookupNode (renumberByFlowSequence nodes edges) id =
      (lookupNode nodes id).map fun n =>
        (assignNode n (assignSeq (lookupNode nodes) xs 1).2).1 := by
  intro xs id ys hdecomp
  have hidN : id ∈ travNews nodes edges := by
    rw [hdecomp]
    exact List.mem_append_right _ (List.mem_cons_self _ _)
  have hsome : (lookupNode nodes id).isSome = true :=
    travNews_present nodes edges id hidN
  obtain ⟨n, hfn⟩ := Option.isSome_iff_exists.mp hsome
  obtain ⟨hnid, hnmem⟩ := lookupNode_some_id nodes id n hfn
  have hstep : assignSeq (lookupNode nodes) (id :: ys)
      (assignSeq (lookupNode nodes) xs 1).2 =
      ((assignNode n (assignSeq (lookupNode nodes) xs 1).2).1 ::
        (assignSeq (lookupNode nodes) ys
          (assignNode n (assignSeq (lookupNode nodes) xs 1).2).2).1,
        (assignSeq (lookupNode nodes) ys
          (assignNode n (assignSeq (lookupNode nodes) xs 1).2).2).2) := by
    simp only [assignSeq, hfn]
  have hdec1 : (assignSeq (lookupNode nodes) (travNews nodes edges) 1).1 =
      (assignSeq (lookupNode nodes) xs 1).1 ++
        (assignNode n (assignSeq (lookupNode nodes) xs 1).2).1 ::
          (assignSeq (lookupNode nodes) ys
            (assignNode n (assignSeq (lookupNode nodes) xs 1).2).2).1 := by
    rw [hdecomp, assignSeq_append, hstep]
  have hmem_out : (assignNode n (assignSeq (lookupNode nodes) xs 1).2).1 ∈
      renumberByFlowSequence nodes edges := by
    rw [renumberByFlowSequence_eq]
    apply List.mem_append_left
    rw [hdec1]
    exact List.mem_append_right _ (List.mem_cons_self _ _)
  have hid_out : ((assignNode n (assignSeq (lookupNode nodes) xs 1).2).1).id = id := by
    rw [assignNode_id, hnid]
  have hself := lookupNode_mem_self (renumberByFlowSequence nodes edges)
    (renumber_map_id_nodup nodes edges hnd)
    ((assignNode n (assignSeq (lookupNode nodes) xs 1).2).1) hmem_out
  rw [hid_out] at hself
  rw [hself, hfn]
  rfl

/-- Renumbering an already renumbered graph reproduces it exactly:
same visitation order, same counters, same logical ids. -/
theorem renumber_fixpoint (nodes : List Node) (edges : List Edge)
    (hnd : (nodes.map Node.id).Nodup) :
    renumberByFlowSequence (renumberByFlowSequence nodes edges) edges =
      renumberByFlowSequence nodes edges := by
  rw [renumberByFlowSequence_eq (renumberByFlowSequence nodes edges) edges,
    travNews_renumber_eq nodes edges hnd, travVisit_renumber_eq nodes edges hnd]
  have hA : assignSeq (lookupNode (renumberByFlowSequence nodes edges))
      (travNews nodes edges) 1 =
      assignSeq (lookupNode nodes) (travNews nodes edges) 1 := by
    apply assignSeq_congr_assigned
    intro xs id ys hdecomp
    exact lookup_renumber_assigned nodes edges hnd xs id ys hdecomp
  rw [hA]
  have hBfilter : (renumberByFlowSequence nodes edges).filter
      (fun n => !((travVisit nodes edges).1.contains n.id)) =
      (assignList
        (nodes.filter fun n => !((travVisit nodes edges).1.contains n.id))
        (assignSeq (lookupNode nodes) (travNews nodes edges) 1).2).1 := by
    conv_lhs => rw [renumberByFlowSequence_eq nodes edges]
    rw [List.filter_append]
    have h1 : (assignSeq (lookupNode nodes) (travNews nodes edges) 1).1.filter
        (fun n => !((travVisit nodes edges).1.contains n.id)) = [] := by
      apply List.filter_eq_nil_iff.mpr
      intro x hx
      have hmap : (assignSeq (lookupNode nodes) (travNews nodes edges) 1).1.map
          Node.id = travNews nodes edges := by
        rw [assignSeq_eq_assignList, assignList_map_id,
          filterMap_lookup_map_id nodes _ (travNews_present nodes edges)]
      have hxid : x.id ∈ travNews nodes edges := by
        rw [← hmap]
        exact List.mem_map_of_mem Node.id hx
      have hv : x.id ∈ (travVisit nodes edges).1 :=
        (mem_travVisit_iff nodes edges x.id).mpr hxid
      simpa using hv
    have h2 : ((assignList
        (nodes.filter fun n => !((travVisit nodes edges).1.contains n.id))
        (assignSeq (lookupNode nodes) (travNews nodes edges) 1).2).1).filter
        (fun n => !((travVisit nodes edges).1.contains n.id)) =
        (assignList
          (nodes.filter fun n => !((travVisit nodes edges).1.contains n.id))
          (assignSeq (lookupNode nodes) (travNews nodes edges) 1).2).1 := by
      apply List.filter_eq_self.mpr
      intro x hx
      obtain ⟨y, hy, hxy⟩ := assignList_mem_id _ _ x hx
      have hyf := (List.mem_filter.mp hy).2
      rw [hxy]
      exact hyf
    rw [h1, h2, List.nil_append]
  rw [hBfilter, assignList_idem]
  exact (renumberByFlowSequence_eq nodes edges).symm

/-- **C8.** The logical renumbering is idempotent: on a graph with
pairwise-distinct node ids, renumbering the result of renumbering the
same unchanged graph reproduces the first run's output exactly — in
particular every node keeps the very logical id the first run assigned
it. -/
theorem renumber_idempotent (nodes : List Node) (edges : List Edge)
    (hnd : (nodes.map Node.id).Nodup) :
    renumberByFlowSequence (renumberByFlowSequence nodes edges) edges =
      renumberByFlowSequence nodes edges :=
  renumber_fixpoint nodes edges hnd

/-- Witness for `renumber_idempotent` on a concrete three-node
chain. -/
theorem renumber_idempotent_witness :
    (c8nodes.map Node.id).Nodup
    ∧ renumberByFlowSequence (renumberByFlowSequence c8nodes c8edges) c8edges =
        renumberByFlowSequence c8nodes c8edges :=
  ⟨by decide, renumber_idempotent c8nodes c8edges (by decide)⟩

end ProcessMapper
